import Mathlib

/-
  Shallow embedding of the filedb catalog (src/lib.rs) and verification of
  the specification's claims about it.

  Modelling conventions:
  * Machine integers are Nat; u32::MAX is the explicit constant SENTINEL,
    u16 level arithmetic keeps the source's checked semantics (an overflow
    or a failed assert! is an Err), u64 data arithmetic wraps mod 2^64.
  * Fallible code (index panics, assert!, unwrap) returns Except Err.
  * OsString path components are opaque byte strings (List Nat); a full
    path is its list of components, and Path::starts_with is list-prefix.
  * The blake3 Hasher (external crate) is modelled per the spec (§4.4) as
    an injective digest: file contents are identified by a content id from
    the filesystem model, and hashing a concatenation of fixed-width
    digests is modelled by a length-prefixed concatenation, which is
    injective exactly as the real 32-byte concatenation is.
-/

namespace Filedb

/-- Failure modes of the Rust code: index-out-of-bounds panics, failed
assert! macros, Option::unwrap panics, checked u16 overflow, the pruner's
not-implemented assertion, the crawler's existing-path assertion, and fuel
exhaustion of the loop-detecting path walk (unreachable in practice, see
get_full_path). -/
inductive Err where
  | oob
  | assertFailed
  | unwrapFailed
  | overflow
  | notImpl
  | existingPath
  | fuel
  deriving DecidableEq

deriving instance DecidableEq for Except

/-- Sentinel parent value, u32::MAX in the source. -/
def SENTINEL : Nat := 2 ^ 32 - 1

/-- Largest u16 value, used by the propagation passes as an unset-level
sentinel. -/
def MAX16 : Nat := 65535

/-- A path component: an opaque byte string (OsString in the source). -/
abbrev Name := List Nat

/-- A 256-bit digest, modelled as an opaque byte string; the all-zero
EMPTY sentinel is modelled by the empty list. -/
abbrev HashM := List Nat

/-- EMPTY sentinel digest (0x00...00 in the source). -/
def EMPTY_HASH : HashM := []

/-- Modelled from the spec: the Hasher (§4.4, blake3 external crate)
streams a file's bytes and returns a collision-resistant 256-bit digest.
The filesystem model identifies file contents by a content id, and the
digest of a file is an injective function of that id. -/
def get_hash_for_file (contentId : Nat) : HashM := [1, contentId]

/-- Modelled from the spec: the digest of a concatenation of child
digests (the blake3 roll-up in propagate_hashes). Real child digests are
exactly 32 bytes each, so their concatenation determines the sequence of
digests; the model keeps that injectivity by length-prefixing each
digest. -/
def blake3_of_hashes (hs : List HashM) : HashM :=
  0 :: hs.foldr (fun h acc => (h.length :: h) ++ acc) []

/-- One record of the Node Store (struct FileDbEntry in the source). -/
structure FileDbEntry where
  name : Name
  is_dir : Bool
  parent : Nat
  size : Nat
  modified : Nat
  accessed : Nat
  hash : HashM
  deriving DecidableEq

/-- The Node Store: a flat ordered sequence of records (type FileDb =
Vec<FileDbEntry> in the source). -/
abbrev FileDb := List FileDbEntry

/-- is_root_index from the source. -/
def is_root_index (entry_index : Nat) : Bool := entry_index == 0

/-- The forest invariants of §3 as an executable check: address 0 has
SENTINEL parent, every other node's parent is a strictly lower address,
and every referenced parent is a directory. -/
def dbInvB (db : FileDb) : Bool :=
  (List.range db.length).all fun i =>
    match db[i]? with
    | none => false
    | some e =>
      if i = 0 then e.parent == SENTINEL
      else
        decide (e.parent < i) &&
          (match db[e.parent]? with
           | some p => p.is_dir
           | none => false)

/-- The forest invariants as a proposition. -/
def DbInv (db : FileDb) : Prop := dbInvB db = true

instance (db : FileDb) : Decidable (DbInv db) := by
  unfold DbInv; infer_instance

/-- Loop body of get_full_path: look up the current entry, record its
name, stop at address 0, otherwise check the visited set (the source's
loop-detection assert) and step to the parent. Fuel bounds the number of
iterations; since every iteration inserts a fresh index into the visited
set and a revisit trips the assert, db.length + 2 fuel is never
exhausted. -/
def get_full_path_go (db : FileDb) :
    Nat → Nat → List Nat → List Name → Except Err (List Name)
  | 0, _, _, _ => .error .fuel
  | fuel + 1, i, seen, comps =>
    match db[i]? with
    | none => .error .oob
    | some e =>
      let comps' := comps ++ [e.name]
      if i = 0 then .ok comps'.reverse
      else
        let seen' := i :: seen
        if e.parent ∈ seen' then .error .assertFailed
        else get_full_path_go db fuel e.parent seen' comps'

/-- get_full_path from the source: walk parent pointers to address 0
collecting names, then reverse. A detected cycle (or an out-of-range
index) is a panic, modelled as an error. -/
def get_full_path (db : FileDb) (i : Nat) : Except Err (List Name) :=
  get_full_path_go db (db.length + 2) i [] []

/-- The Path Index: a map from full path to node address (type
PathToIndexMap in the source), modelled as an association list with
HashMap semantics (insert overwrites, lookup finds the unique binding). -/
abbrev PathIdx := List (List Name × Nat)

/-- HashMap::insert: replace an existing binding or append a new one. -/
def pti_insert (m : PathIdx) (k : List Name) (v : Nat) : PathIdx :=
  match m with
  | [] => [(k, v)]
  | (k', v') :: rest =>
    if k' = k then (k, v) :: rest else (k', v') :: pti_insert rest k v

/-- HashMap::get on the Path Index. -/
def pti_lookup (m : PathIdx) (k : List Name) : Option Nat :=
  match m with
  | [] => none
  | (k', v') :: rest => if k' = k then some v' else pti_lookup rest k

/-- build_path_to_index_map from the source: scan the store in address
order and bind each directory's full path to its address. -/
def build_path_to_index_map (db : FileDb) : Except Err PathIdx :=
  (List.range db.length).foldlM
    (fun pti i =>
      match db[i]? with
      | none => .error .oob
      | some e =>
        if e.is_dir then do
          let p ← get_full_path db i
          pure (pti_insert pti p i)
        else pure pti)
    []

/-- add_file_db_entry from the source: assert the store stays below the
32-bit scale limit, push, and return the new node's address (the previous
length). -/
def add_file_db_entry (db : FileDb) (e : FileDbEntry) :
    Except Err (FileDb × Nat) :=
  if db.length < 2 ^ 32 - 2 then .ok (db ++ [e], db.length)
  else .error .assertFailed

/-- Extension of a path, per Rust's Path::extension: the bytes after the
last dot of the final component, none when there is no final component,
no dot, or the only dot is the leading character. 46 is the byte of
a dot. -/
def after_last_dot (l : List Nat) : List Nat :=
  (l.reverse.takeWhile (fun b => b != 46)).reverse

/-- get_ext from the source (via Path::extension). -/
def get_ext (p : List Name) : Option (List Nat) :=
  match p.getLast? with
  | none => none
  | some fname =>
    match fname with
    | [] => none
    | _ :: rest =>
      if rest.contains 46 then some (after_last_dot rest) else none

/-- is_archive from the source: the extension equals tar, xz, gz or tgz
(byte strings [116,97,114], [120,122], [103,122], [116,103,122]). -/
def is_archive (p : List Name) : Bool :=
  match get_ext p with
  | none => false
  | some e =>
    e == [116, 97, 114] || e == [120, 122] || e == [103, 122] ||
      e == [116, 103, 122]

/-- The reset step of propagate_sizes: directory sizes go back to 0 so
the pass also works incrementally. -/
def reset_dir_sizes (db : FileDb) : FileDb :=
  db.map (fun e => if e.is_dir then { e with size := 0 } else e)

/-- The reset step of propagate_hashes: directory hashes go back to
EMPTY. -/
def reset_dir_hashes (db : FileDb) : FileDb :=
  db.map (fun e => if e.is_dir then { e with hash := EMPTY_HASH } else e)

/-- Loop body of the forward level sweep of propagate_sizes: for index i,
read the entry, index the levels vector at its parent (a panic when the
parent is out of range), assert the parent's level is not the unset
sentinel, and record level(parent) + 1. The u16 addition cannot overflow
here because the assert bounds the parent's level by 65534. -/
def levels_step (db : FileDb) (st : List Nat × Nat) (i : Nat) :
    Except Err (List Nat × Nat) :=
  match db[i]? with
  | none => .error .oob
  | some e =>
    match st.1[e.parent]? with
    | none => .error .oob
    | some lp =>
      if lp = MAX16 then .error .assertFailed
      else
        let lv := lp + 1
        .ok (st.1.set i lv, if lv > st.2 then lv else st.2)

/-- The forward level sweep of propagate_sizes: levels[0] = 0 (an index
panic on the empty store) and levels[i] = levels[parent] + 1 for
i = 1 .. len - 1, tracking the maximum level. -/
def compute_levels (db : FileDb) : Except Err (List Nat × Nat) :=
  if db.length = 0 then .error .oob
  else
    (List.range' 1 (db.length - 1)).foldlM (levels_step db)
      ((List.replicate db.length MAX16).set 0 0, 0)

/-- One index of the bottom-up size pass: when the node sits at the level
being propagated, add its size to its parent's size (u64 addition,
wrapping mod 2^64). -/
def size_accum_step (levels : List Nat) (d : Nat) (db : FileDb) (i : Nat) :
    Except Err FileDb :=
  match levels[i]? with
  | none => .error .oob
  | some li =>
    if li = d then
      match db[i]? with
      | none => .error .oob
      | some e =>
        match db[e.parent]? with
        | none => .error .oob
        | some p =>
          .ok (db.set e.parent { p with size := (p.size + e.size) % 2 ^ 64 })
    else .ok db

/-- One level of the bottom-up size pass: scan all indices in order and
accumulate the ones at level d. -/
def size_level_pass (levels : List Nat) (db : FileDb) (d : Nat) :
    Except Err FileDb :=
  (List.range levels.length).foldlM (fun acc i => size_accum_step levels d acc i) db

/-- The level schedule (1 .. max_level).rev() of the source's bottom-up
loops. -/
def rev_levels (maxL : Nat) : List Nat := (List.range' 1 maxL).reverse

/-- propagate_sizes from the source: reset directory sizes, run the
forward level sweep, then add sizes level by level from the bottom. The
u16 expression max_level + 1 in the loop bound overflows exactly when
max_level is 65535, modelled as an overflow error. -/
def propagate_sizes (db : FileDb) : Except Err FileDb := do
  let db0 := reset_dir_sizes db
  let (levels, maxL) ← compute_levels db0
  if maxL = MAX16 then .error .overflow
  else (rev_levels maxL).foldlM (size_level_pass levels) db0

/-- Entry name at an address, used as the sort key of the child lists in
propagate_hashes; the indices sorted always lie below the store length,
so the source's direct indexing cannot fail there. -/
def name_of (db : FileDb) (i : Nat) : Name :=
  match db[i]? with
  | some e => e.name
  | none => []

/-- Byte-lexicographic order on names, the Ord of OsString used by
sort_by_key. -/
def nameLe (a b : List Nat) : Bool :=
  match a, b with
  | [], _ => true
  | _ :: _, [] => false
  | x :: xs, y :: ys => x < y || (x == y && nameLe xs ys)

/-- The child list of a parent address in propagate_hashes: all indices
i ≥ 1 whose parent field equals it, in ascending order, exactly the
content the source pushes into dir_to_entries while scanning 1 .. len. -/
def children_of (db : FileDb) (d : Nat) : List Nat :=
  (List.range db.length).filter fun i =>
    i != 0 &&
      (match db[i]? with
       | some e => e.parent == d
       | none => false)

/-- Stable sort of a child list by entry name (Vec::sort_by_key; a stable
sort by a total preorder key determines the result uniquely, so any
stable sorting algorithm is an exact model). -/
def sort_children (db : FileDb) (l : List Nat) : List Nat :=
  List.insertionSort (fun i j => nameLe (name_of db i) (name_of db j) = true) l

/-- Loop body of the level sweep of propagate_hashes, computed on
directory entries only: files keep the unset sentinel and are never
processed by the bottom-up loop. The source asserts levels[parent] is
set and that the new level stays below u16::MAX. -/
def dir_levels_step (db : FileDb) (st : List Nat × Nat) (i : Nat) :
    Except Err (List Nat × Nat) :=
  match db[i]? with
  | none => .error .oob
  | some e =>
    if e.is_dir then
      match st.1[e.parent]? with
      | none => .error .oob
      | some lp =>
        if lp = MAX16 then .error .assertFailed
        else
          let lv := lp + 1
          if lv ≥ MAX16 then .error .assertFailed
          else .ok (st.1.set i lv, if lv > st.2 then lv else st.2)
    else .ok st

/-- The directory level sweep of propagate_hashes. -/
def compute_dir_levels (db : FileDb) : Except Err (List Nat × Nat) :=
  if db.length = 0 then .error .oob
  else
    (List.range' 1 (db.length - 1)).foldlM (dir_levels_step db)
      ((List.replicate db.length MAX16).set 0 0, 0)

/-- One index of the bottom-up hash pass, threading the evolving hash
column hs: a directory at the level being propagated receives the digest
of its children's current hashes taken in name-sorted order; the source
then asserts the new digest is not EMPTY. -/
def hash_step (db : FileDb) (levels : List Nat) (d : Nat)
    (hs : List HashM) (i : Nat) : Except Err (List HashM) :=
  match levels[i]? with
  | none => .error .oob
  | some li =>
    if li = d then do
      let sorted := sort_children db (children_of db i)
      let childHs ← sorted.mapM fun j =>
        match hs[j]? with
        | some x => Except.ok x
        | none => Except.error Err.oob
      let h := blake3_of_hashes childHs
      if h = EMPTY_HASH then Except.error Err.assertFailed
      else Except.ok (hs.set i h)
    else Except.ok hs

/-- One level of the bottom-up hash pass. -/
def hash_level_pass (db : FileDb) (levels : List Nat) (hs : List HashM)
    (d : Nat) : Except Err (List HashM) :=
  (List.range levels.length).foldlM (fun acc i => hash_step db levels d acc i) hs

/-- Write a hash column back into the store. -/
def zip_hashes (db : FileDb) (hs : List HashM) : FileDb :=
  List.zipWith (fun e h => { e with hash := h }) db hs

/-- propagate_hashes from the source: reset directory hashes, compute
directory levels, assert max_level < u16::MAX - 1, run the bottom-up
hash pass, and finally assert that every entry except the root carries a
non-EMPTY hash. -/
def propagate_hashes (db : FileDb) : Except Err FileDb := do
  let db0 := reset_dir_hashes db
  let (levels, maxL) ← compute_dir_levels db0
  if maxL < MAX16 - 1 then do
    let hs0 := db0.map (·.hash)
    let hs ← (rev_levels maxL).foldlM (hash_level_pass db0 levels) hs0
    if (hs.drop 1).all (fun h => h != EMPTY_HASH) then
      pure (zip_hashes db0 hs)
    else .error .assertFailed
  else .error .assertFailed

/-- Little-endian fixed-width encoding of an unsigned integer, w bytes. -/
def encodeNat (w n : Nat) : List Nat :=
  match w with
  | 0 => []
  | w + 1 => n % 256 :: encodeNat w (n / 256)

/-- Little-endian fixed-width decoding, returning the value and the rest
of the stream. -/
def decodeNat (w : Nat) (l : List Nat) : Option (Nat × List Nat) :=
  match w with
  | 0 => some (0, l)
  | w + 1 =>
    match l with
    | [] => none
    | b :: rest => (decodeNat w rest).map (fun nr => (b + 256 * nr.1, nr.2))

/-- Length-prefixed byte string (the bincode encoding of a byte
sequence: u64 length followed by the raw bytes). -/
def encodeBytes (l : List Nat) : List Nat := encodeNat 8 l.length ++ l

/-- Decode a length-prefixed byte string. -/
def decodeBytes (l : List Nat) : Option (List Nat × List Nat) :=
  (decodeNat 8 l).bind fun nr =>
    if nr.1 ≤ nr.2.length then some (nr.2.take nr.1, nr.2.drop nr.1) else none

/-- One-byte boolean encoding. -/
def encodeBool (b : Bool) : List Nat := [if b then 1 else 0]

/-- Strict one-byte boolean decoding. -/
def decodeBool (l : List Nat) : Option (Bool × List Nat) :=
  match l with
  | 0 :: r => some (false, r)
  | 1 :: r => some (true, r)
  | _ => none

/-- Modelled from the spec: the packed deterministic encoding of one
record (§4.8; the concrete byte layout lives in the external bincode
crate, so the model fixes one deterministic packed encoding of the same
fields: name bytes, flag, 32-bit parent, three 64-bit integers, digest
bytes). -/
def encodeEntry (e : FileDbEntry) : List Nat :=
  encodeBytes e.name ++ encodeBool e.is_dir ++ encodeNat 4 e.parent ++
    encodeNat 8 e.size ++ encodeNat 8 e.modified ++ encodeNat 8 e.accessed ++
    encodeBytes e.hash

/-- Decode one record. -/
def decodeEntry (l : List Nat) : Option (FileDbEntry × List Nat) := do
  let (nm, l) ← decodeBytes l
  let (d, l) ← decodeBool l
  let (pa, l) ← decodeNat 4 l
  let (sz, l) ← decodeNat 8 l
  let (mo, l) ← decodeNat 8 l
  let (ac, l) ← decodeNat 8 l
  let (hs, l) ← decodeBytes l
  pure (⟨nm, d, pa, sz, mo, ac, hs⟩, l)

/-- The packed encoding of the ordered node list: u64 length followed by
the records. -/
def serialize_db (db : FileDb) : List Nat :=
  encodeNat 8 db.length ++ (db.map encodeEntry).flatten

/-- Decode a counted list of records. -/
def decodeEntries : Nat → List Nat → Option (List FileDbEntry × List Nat)
  | 0, l => some ([], l)
  | n + 1, l => do
    let (e, l) ← decodeEntry l
    let (es, l) ← decodeEntries n l
    pure (e :: es, l)

/-- Deserialize a store from a byte stream. -/
def deserialize_db (l : List Nat) : Option FileDb := do
  let (n, l) ← decodeNat 8 l
  let (es, _) ← decodeEntries n l
  pure es

/-- Modelled from the spec: the compression layer (§4.8, the external
zlib crate) is a general-purpose lossless codec whose whole contract is
decompress ∘ compress = id; the model takes the identity codec. -/
def zlib_compress (l : List Nat) : List Nat := l

/-- Modelled from the spec: inverse of zlib_compress. -/
def zlib_decompress (l : List Nat) : List Nat := l

/-- save_compressed from the source: the compressed packed encoding of
the store, written to the catalog file. -/
def save_compressed (db : FileDb) : List Nat := zlib_compress (serialize_db db)

/-- load_compressed from the source: decompress and deserialize. -/
def load_compressed (l : List Nat) : Option FileDb :=
  deserialize_db (zlib_decompress l)

/-- Field-width bounds of one record as stored by the Rust types (name
length and u64 fields below 2^64, parent a u32 value). -/
def wfEntryB (e : FileDbEntry) : Bool :=
  decide (e.name.length < 2 ^ 64) && decide (e.parent < 2 ^ 32) &&
    decide (e.size < 2 ^ 64) && decide (e.modified < 2 ^ 64) &&
    decide (e.accessed < 2 ^ 64) && decide (e.hash.length < 2 ^ 64)

/-- Width bounds of a whole store. -/
def wfDbB (db : FileDb) : Bool :=
  decide (db.length < 2 ^ 64) && db.all wfEntryB

/-- A default record used to build concrete stores in witnesses. -/
def e0 : FileDbEntry := ⟨[], false, 0, 0, 0, 0, []⟩

/-- The filesystem model: a tree of entries. Each node carries the
metadata the code reads through fs::metadata / symlink_metadata /
DirEntry::metadata (kind, byte length, modification and access times in
seconds) plus a content id standing for the file's byte content (see
get_hash_for_file). Symlinks are not modelled: none of the verified
claims depends on them, and the code records but never follows them. -/
inductive FsTree where
  | node (name : Name) (is_dir : Bool) (size modified accessed contentId : Nat)
      (children : List FsTree)

/-- Name of a filesystem node. -/
def FsTree.name : FsTree → Name
  | node n _ _ _ _ _ _ => n

/-- Directory flag of a filesystem node. -/
def FsTree.is_dir : FsTree → Bool
  | node _ d _ _ _ _ _ => d

/-- Byte length of a filesystem node. -/
def FsTree.size : FsTree → Nat
  | node _ _ s _ _ _ _ => s

/-- Modification time of a filesystem node. -/
def FsTree.modified : FsTree → Nat
  | node _ _ _ m _ _ _ => m

/-- Access time of a filesystem node. -/
def FsTree.accessed : FsTree → Nat
  | node _ _ _ _ a _ _ => a

/-- Content id of a filesystem node. -/
def FsTree.contentId : FsTree → Nat
  | node _ _ _ _ _ c _ => c

/-- Children of a filesystem node. -/
def FsTree.children : FsTree → List FsTree
  | node _ _ _ _ _ _ cs => cs

/-- Resolve an absolute path (its component list, anchor first) in the
filesystem: fs::metadata and friends. Components are matched by
byte-exact name. -/
def fsFind (p : List Name) (t : FsTree) : Option FsTree :=
  match p with
  | [] => none
  | [n] => if t.name = n then some t else none
  | n :: rest =>
    if t.name = n then t.children.findSome? (fun c => fsFind rest c)
    else none

/-- The pre-order walk of WalkDir rooted at a node: the node itself
first, then each child's subtree in child-list order (contents_first is
false in the source, and sibling order is whatever the directory
iteration yields, which the model's child-list order represents). Each
visited node is paired with its absolute path. -/
def fsWalk (t : FsTree) (pfx : List Name) : List (List Name × FsTree) :=
  match t with
  | .node n d sz mo ac cid cs =>
    (pfx ++ [n], .node n d sz mo ac cid cs) ::
      (cs.attach.map (fun c => fsWalk c.1 (pfx ++ [n]))).flatten
termination_by t
decreasing_by
  simp_wf
  have := List.sizeOf_lt_of_mem c.2
  omega

/-- WalkDir::new(root): resolve the root and walk its subtree; a root
that does not exist makes the iterator yield an error which the source
unwraps (a panic). -/
def walk_dir (fs : FsTree) (root : List Name) :
    Except Err (List (List Name × FsTree)) :=
  match fsFind root fs with
  | none => .error .unwrapFailed
  | some t => .ok (fsWalk t root.dropLast)

/-- Upward scan of add_root_path_components: starting from the root
path, walk toward the anchor collecting final components until a prefix
is found in the Path Index or the path has no parent left. Returns the
final prefix, the collected components in push order, and the found
flag. -/
def arpc_walk (pti : PathIdx) (p : List Name) (acc : List Name) :
    List Name × List Name × Bool :=
  match pti_lookup pti p with
  | some _ => (p, acc, true)
  | none =>
    if p.length ≤ 1 then (p, acc, false)
    else arpc_walk pti p.dropLast (acc ++ [p.getLastD []])
termination_by p.length
decreasing_by
  simp_wf
  omega

/-- State of the downward insertion loop of add_root_path_components. -/
structure ArpcSt where
  db : FileDb
  pti : PathIdx
  cur : List Name
  parentIdx : Nat

/-- One step of the downward insertion loop: extend the current path by
the next component, read its live metadata (a missing ancestor is fatal:
fs::metadata(..).unwrap()), append a directory node with size 0 and
EMPTY hash whose parent is the previously inserted node, and bind the
path in the Path Index. -/
def arpc_step (fs : FsTree) (st : ArpcSt) (nm : Name) : Except Err ArpcSt :=
  let cur' := st.cur ++ [nm]
  match fsFind cur' fs with
  | none => .error .unwrapFailed
  | some t => do
    let e : FileDbEntry :=
      ⟨nm, true, st.parentIdx, 0, t.modified, t.accessed, EMPTY_HASH⟩
    let (db', addr) ← add_file_db_entry st.db e
    pure ⟨db', pti_insert st.pti cur' addr, cur', addr⟩

/-- add_root_path_components from the source: assert the root path is
not already in the Path Index, walk up to the nearest known ancestor (or
the anchor), then walk back down inserting one directory node per
missing component. When no ancestor is known, the anchor itself is the
first inserted component and the first inserted node gets the SENTINEL
parent. The DECOMPRESS_ARCHIVES assert at the top of the source function
is over the compile-time constant false and always passes. -/
def add_root_path_components (fs : FsTree) (root : List Name)
    (db : FileDb) (pti : PathIdx) : Except Err (FileDb × PathIdx) :=
  if (pti_lookup pti root).isSome then .error .existingPath
  else
    let w := arpc_walk pti root []
    let pre := w.1
    let found := w.2.2
    let names :=
      if found then w.2.1.reverse else (w.2.1 ++ [pre.getLastD []]).reverse
    let parent0 := if found then (pti_lookup pti pre).getD SENTINEL else SENTINEL
    let start := if found then pre else []
    do
      let st ← names.foldlM (arpc_step fs) ⟨db, pti, start, parent0⟩
      pure (st.db, st.pti)

/-- The directory-to-files map handed to the crawler by update (type
DirToFilesMap in the source), association list model. -/
abbrev DirToFiles := List (Nat × List Nat)

/-- HashMap::get on the directory-to-files map. -/
def d2f_lookup (m : DirToFiles) (k : Nat) : Option (List Nat) :=
  match m with
  | [] => none
  | (k', v) :: rest => if k' = k then some v else d2f_lookup rest k

/-- One visited path of the descent loop of add_dir_recursive: skip a
path already in the Path Index; look up the parent address (its absence
is the BrokenParent unwrap panic); in update mode skip a file whose name
already appears among the known files of its directory (indexing the
store with a stale file index is a panic); otherwise hash files, append
the node, and bind new directories in the Path Index (asserting the path
was unbound). The archive branch is statically dead: DECOMPRESS_ARCHIVES
is the compile-time constant false. -/
def adr_step (d2f : DirToFiles) (is_up : Bool)
    (st : FileDb × PathIdx) (pe : List Name × FsTree) :
    Except Err (FileDb × PathIdx) :=
  let (db, pti) := st
  let (path, t) := pe
  if (pti_lookup pti path).isSome then pure st
  else
    match pti_lookup pti path.dropLast with
    | none => .error .unwrapFailed
    | some parentIdx => do
      let fname := path.getLastD []
      let skip ←
        if is_up then
          if t.is_dir then pure (pti_lookup pti path).isSome
          else
            match d2f_lookup d2f parentIdx with
            | none => pure false
            | some fidxs =>
              fidxs.foldlM
                (fun acc fi =>
                  if acc then pure acc
                  else
                    match db[fi]? with
                    | some fe => pure (fe.name == fname)
                    | none => Except.error Err.oob)
                false
        else pure false
      if skip then pure st
      else
        let hash := if t.is_dir then EMPTY_HASH else get_hash_for_file t.contentId
        let e : FileDbEntry :=
          ⟨fname, t.is_dir, parentIdx, if t.is_dir then 0 else t.size,
            t.modified, t.accessed, hash⟩
        let (db', _) ← add_file_db_entry db e
        if t.is_dir then
          if (pti_lookup pti path).isSome then Except.error Err.assertFailed
          else pure (db', pti_insert pti path (db'.length - 1))
        else pure (db', pti)

/-- add_dir_recursive from the source: assert the root is absolute
(modelled: non-empty; trailing separators do not arise in the component
model), splice the root path components unless in update mode
(dir_to_file_indexes non-empty), then process the pre-order walk. -/
def add_dir_recursive (fs : FsTree) (root : List Name) (db : FileDb)
    (pti : PathIdx) (d2f : DirToFiles) : Except Err (FileDb × PathIdx) :=
  if root = [] then .error .assertFailed
  else
    let is_up := !d2f.isEmpty
    do
      let st0 ←
        if is_up then pure (db, pti)
        else add_root_path_components fs root db pti
      let entries ← walk_dir fs root
      entries.foldlM (adr_step d2f is_up) st0

/-- crawl_initial from the source: a fresh store, a fresh Path Index, no
update skip-set. -/
def crawl_initial (fs : FsTree) (root : List Name) : Except Err FileDb :=
  (add_dir_recursive fs root [] [] []).map (·.1)

/-- crawl_add from the source: rebuild the Path Index from the store and
extend it, with an empty directory-to-files map. -/
def crawl_add (fs : FsTree) (db : FileDb) (root : List Name) :
    Except Err FileDb := do
  let pti ← build_path_to_index_map db
  let st ← add_dir_recursive fs root db pti []
  pure st.1

/-- One entry of prune_deleted_paths: reconstruct the full path, probe
the live filesystem (symlink_metadata), drop the entry when the probe
fails or when the type, or a file's size or mtime, changed (a changed
directory is the source's not-implemented assertion), otherwise re-emit
it with the parent remapped through the Path Index built over the new
store. -/
def prune_step (fs : FsTree) (db : FileDb) (st : FileDb × PathIdx)
    (i : Nat) : Except Err (FileDb × PathIdx) := do
  let (ndb, pti) := st
  let path ← get_full_path db i
  match fsFind path fs with
  | none => pure st
  | some t =>
    match db[i]? with
    | none => .error .oob
    | some e =>
      if t.is_dir != e.is_dir || (!t.is_dir && t.size != e.size)
          || (!t.is_dir && t.modified != e.modified) then
        if e.is_dir then .error .notImpl else pure st
      else do
        let e' ←
          if is_root_index i then pure e
          else
            match pti_lookup pti path.dropLast with
            | none => Except.error Err.unwrapFailed
            | some pIdx => pure { e with parent := pIdx }
        let (ndb', _) ← add_file_db_entry ndb e'
        if e.is_dir then pure (ndb', pti_insert pti path (ndb'.length - 1))
        else pure (ndb', pti)

/-- prune_deleted_paths from the source: rebuild the store in ascending
address order into a fresh buffer (shrink_to_fit has no observable
effect in the model). -/
def prune_deleted_paths (fs : FsTree) (db : FileDb) : Except Err FileDb := do
  let st ← (List.range db.length).foldlM (prune_step fs db) ([], [])
  pure st.1

/-- Observable outcome of mv: a panic, the silent fall-through that
neither rewrites the catalog file, nor reparents a node, nor moves
anything on the filesystem, or a completed move carrying the store that
is propagated and saved. -/
inductive MvOutcome where
  | panicked (e : Err)
  | noop
  | moved (db : FileDb)

/-- Index scan of mv: find the directory entries whose full paths equal
the source and target directories. -/
def mv_scan (db : FileDb) (from_dir to_dir : List Name) :
    Except Err (Option Nat × Option Nat) :=
  (List.range db.length).foldlM
    (fun (st : Option Nat × Option Nat) i =>
      match db[i]? with
      | none => Except.error Err.oob
      | some e =>
        if !e.is_dir then Except.ok st
        else do
          let p ← get_full_path db i
          let st1 := if p = to_dir then (some i, st.2) else st
          Except.ok (if p = from_dir then (st1.1, some i) else st1))
    (none, none)

/-- mv from the source: panic when either endpoint is missing on the
filesystem; when both exist and both are directories, check the target
child path is free, reparent the source node to the target node, move
the data on the filesystem, propagate sizes and save; when both exist
but at least one is not a directory, fall through and return without
doing anything. -/
def mv (fs : FsTree) (db : FileDb) (from_dir to_dir : List Name) : MvOutcome :=
  match fsFind from_dir fs with
  | none => .panicked .unwrapFailed
  | some tf =>
    match fsFind to_dir fs with
    | none => .panicked .unwrapFailed
    | some tt =>
      if tf.is_dir && tt.is_dir then
        let target := to_dir ++ [from_dir.getLastD []]
        if (fsFind target fs).isSome then .panicked .assertFailed
        else
          match mv_scan db from_dir to_dir with
          | .error er => .panicked er
          | .ok (someTo, someFrom) =>
            match someTo, someFrom with
            | some toI, some fromI =>
              match db[fromI]? with
              | none => .panicked .oob
              | some e =>
                match propagate_sizes (db.set fromI { e with parent := toI }) with
                | .ok db' => .moved db'
                | .error er => .panicked er
            | _, _ => .panicked .assertFailed
      else .noop

/-- The hash-to-indices map of all_files_elsewhere: HashMap::entry(..)
.or_insert(vec![]).push(i), association-list model. -/
def h2i_bump (m : List (HashM × List Nat)) (h : HashM) (j : Nat) :
    List (HashM × List Nat) :=
  match m with
  | [] => [(h, [j])]
  | (k, v) :: rest =>
    if k = h then (k, v ++ [j]) :: rest else (k, v) :: h2i_bump rest h j

/-- HashMap::get on the hash-to-indices map. -/
def h2i_lookup (m : List (HashM × List Nat)) (h : HashM) : Option (List Nat) :=
  match m with
  | [] => none
  | (k, v) :: rest => if k = h then some v else h2i_lookup rest h

/-- Sequenced mapping over indices in the Except monad (List.mapM of
the Except monad, spelt out structurally). -/
def mapE {alp : Type} (f : Nat → Except Err alp) : List Nat → Except Err (List alp)
  | [] => .ok []
  | x :: xs => do
    let a ← f x
    let as ← mapE f xs
    pure (a :: as)

/-- All entries of the store together with their reconstructed full
paths. The source recomputes paths inside each of its two loops; a path
failure aborts the whole operation either way and path reconstruction
has no effect on the store, so precomputing is equivalent. -/
def afe_items (db : FileDb) :
    Except Err (List (Nat × FileDbEntry × List Name)) :=
  mapE
    (fun i =>
      match db[i]? with
      | none => Except.error Err.oob
      | some e => (get_full_path db i).map (fun p => (i, e, p)))
    (List.range db.length)

/-- First loop filter of all_files_elsewhere: non-directory, non-empty,
and the full path does not start with the target directory. -/
def afe_outside (T : List Name) (it : Nat × FileDbEntry × List Name) : Bool :=
  !it.2.1.is_dir && it.2.1.size != 0 && !(T.isPrefixOf it.2.2)

/-- Build the hash-to-indices map over the entries outside the target
directory, in ascending address order. -/
def afe_build (T : List Name) (items : List (Nat × FileDbEntry × List Name)) :
    List (HashM × List Nat) :=
  items.foldl
    (fun m it => if afe_outside T it then h2i_bump m it.2.1.hash it.1 else m) []

/-- Second loop scope of all_files_elsewhere: under the target
directory, a file, non-empty. -/
def afe_in_scope (T : List Name) (it : Nat × FileDbEntry × List Name) : Bool :=
  T.isPrefixOf it.2.2 && !it.2.1.is_dir && it.2.1.size != 0

/-- The covered test of all_files_elsewhere: some indexed entry with the
same hash also has the same size. The indices stored in the map are
drawn from List.range db.length, so the store lookup never misses; the
impossible miss is mapped to false. -/
def afe_covered (db : FileDb) (m : List (HashM × List Nat))
    (it : Nat × FileDbEntry × List Name) : Bool :=
  match h2i_lookup m it.2.1.hash with
  | none => false
  | some lst =>
    lst.any fun j =>
      match db[j]? with
      | some de => de.size == it.2.1.size
      | none => false

/-- all_files_elsewhere from the source, reduced to its observable
classification: the addresses reported missing and the addresses found
covered elsewhere, each in ascending address order. Directories and
empty files under the target are counted and skipped; the removal mode
and the summary statistics do not feed back into the classification (the
map is built before the second loop and removals do not touch the
store). -/
def all_files_elsewhere (db : FileDb) (T : List Name) :
    Except Err (List Nat × List Nat) := do
  let items ← afe_items db
  let m := afe_build T items
  let inT := items.filter (afe_in_scope T)
  let missing := (inT.filter (fun it => !afe_covered db m it)).map (·.1)
  let covered := (inT.filter (fun it => afe_covered db m it)).map (·.1)
  pure (missing, covered)

/-- The (hash, size) grouping map of dedup, association-list model in
first-occurrence key order. Every claim proved below concerns only the
relative order of printed groups with distinct sort keys, which the
stable sort below makes independent of the HashMap's unspecified
iteration order. -/
def g_bump (m : List ((HashM × Nat) × List Nat)) (k : HashM × Nat) (j : Nat) :
    List ((HashM × Nat) × List Nat) :=
  match m with
  | [] => [(k, [j])]
  | (k', v) :: rest =>
    if k' = k then (k', v ++ [j]) :: rest else (k', v) :: g_bump rest k j

/-- Group every entry of the store by (hash, size). -/
def dedup_groups (db : FileDb) : List ((HashM × Nat) × List Nat) :=
  (List.range db.length).foldl
    (fun m i =>
      match db[i]? with
      | none => m
      | some e => g_bump m (e.hash, e.size) i)
    []

/-- The sort key of dedup: size * group_size as u64 (wrapping mod
2^64). -/
def dedup_key (g : (HashM × Nat) × List Nat) : Nat :=
  g.1.2 * g.2.length % 2 ^ 64

/-- dedup from the source, reduced to its observable report: propagate
hashes, group by (hash, size), sort ascending by size * group_size
(Vec::sort_by_key, stable), iterate in reverse, and keep the groups with
more than one member. -/
def dedup (db : FileDb) : Except Err (List ((HashM × Nat) × List Nat)) := do
  let db' ← propagate_hashes db
  let sorted :=
    List.insertionSort (fun a b => dedup_key a ≤ dedup_key b) (dedup_groups db')
  pure (sorted.reverse.filter (fun g => g.2.length != 1))

/-- Fuel-driven depth of a node: 0 for the root, one more than the
parent's depth otherwise. On a store satisfying the forest invariants
(parent strictly below child) a fuel of the node's own address is
enough, because the parent chain strictly descends. -/
def depth_go (db : FileDb) : Nat → Nat → Nat
  | 0, _ => 0
  | fuel + 1, i =>
    if i = 0 then 0
    else
      match db[i]? with
      | none => 0
      | some e => depth_go db fuel e.parent + 1

/-- Depth of a node in an invariant store. -/
def depthD (db : FileDb) (i : Nat) : Nat := depth_go db i i

/-- The largest node depth of a store. -/
def maxDepthOf (db : FileDb) : Nat :=
  (List.range db.length).foldl (fun m i => max m (depthD db i)) 0

/-- One directory record of the deep chain store. -/
def mkChainEntry (i : Nat) : FileDbEntry :=
  ⟨[105], true, if i = 0 then SENTINEL else i - 1, 0, 0, 0, []⟩

/-- A store that is a single chain of n directories, node i at
depth i. -/
def chainDb (n : Nat) : FileDb := (List.range n).map mkChainEntry

/-- Success test of an Except-valued pass. -/
def exceptIsOk (x : Except Err FileDb) : Bool :=
  match x with
  | .ok _ => true
  | .error _ => false

/-- Entry hash at an address, total lookup used in statements about
concrete stores. -/
def hash_of (db : FileDb) (i : Nat) : HashM :=
  match db[i]? with
  | some e => e.hash
  | none => []

/-- A filesystem holding the anchor directory [47] and one file [102]
of size 1 with content id 7. -/
def fs1 : FsTree := .node [47] true 0 1 2 0 [.node [102] false 1 3 4 7 []]

/-- The store crawl_initial produces on fs1 from the anchor root. -/
def db1c : FileDb :=
  [⟨[47], true, SENTINEL, 0, 1, 2, []⟩, ⟨[102], false, 0, 1, 3, 4, [1, 7]⟩]

/-- An invariant-satisfying store whose single node is the directory
named [47,116,101,115,116] (the path /test stored as one component, as
the source's own unit-test stores do). Its Path Index does not contain
the anchor [47]. -/
def db0c : FileDb := [⟨[47, 116, 101, 115, 116], true, SENTINEL, 0, 1, 1, []⟩]

/-- A filesystem holding the anchor [47] with subdirectories
[116,101,115,116] and [97]. -/
def fs2 : FsTree :=
  .node [47] true 0 1 1 0
    [.node [116, 101, 115, 116] true 0 1 1 0 [], .node [97] true 0 1 1 0 []]

/-- A store with two duplicate groups: two files of size 10 sharing
digest [1,1] and three files of size 6 sharing digest [1,2], all under
the root. -/
def db3c : FileDb :=
  [⟨[47], true, SENTINEL, 0, 1, 1, []⟩,
    ⟨[97], false, 0, 10, 1, 1, [1, 1]⟩, ⟨[98], false, 0, 10, 1, 1, [1, 1]⟩,
    ⟨[99], false, 0, 6, 1, 1, [1, 2]⟩, ⟨[100], false, 0, 6, 1, 1, [1, 2]⟩,
    ⟨[101], false, 0, 6, 1, 1, [1, 2]⟩]

/-- A store whose directory at address 1 has two file children: name
[97] with digest [1,5] and name [98] with digest [1,6]. -/
def dbA2 : FileDb :=
  [⟨[47], true, SENTINEL, 0, 1, 1, []⟩, ⟨[100], true, 0, 0, 1, 1, []⟩,
    ⟨[97], false, 1, 1, 1, 1, [1, 5]⟩, ⟨[98], false, 1, 1, 1, 1, [1, 6]⟩]

/-- The same store as dbA2 except for the entry names: the digests now
sit under the opposite names ([98] carries [1,5], [97] carries [1,6]).
Every field other than name agrees with dbA2 pointwise. -/
def dbB2 : FileDb :=
  [⟨[47], true, SENTINEL, 0, 1, 1, []⟩, ⟨[100], true, 0, 0, 1, 1, []⟩,
    ⟨[98], false, 1, 1, 1, 1, [1, 5]⟩, ⟨[97], false, 1, 1, 1, 1, [1, 6]⟩]

/-- The store dbA2 with every size changed (names, structure and file
digests unchanged). -/
def dbA2s : FileDb :=
  [⟨[47], true, SENTINEL, 9, 1, 1, []⟩, ⟨[100], true, 0, 9, 1, 1, []⟩,
    ⟨[97], false, 1, 7, 1, 1, [1, 5]⟩, ⟨[98], false, 1, 7, 1, 1, [1, 6]⟩]

/-- A filesystem with a file [120] and a directory [121] under the
anchor, for the mv witnesses. -/
def fs3 : FsTree :=
  .node [47] true 0 1 1 0
    [.node [120] false 5 1 1 9 [], .node [121] true 0 1 1 0 []]

/-- A store for the all_files_elsewhere witness: a directory
[116] under the root holding one file of size 5 and digest [1,9], a file
of the same size and digest outside it, and an empty file outside. -/
def dbw : FileDb :=
  [⟨[47], true, SENTINEL, 0, 1, 1, []⟩,
    ⟨[116], true, 0, 0, 1, 1, []⟩,
    ⟨[97], false, 1, 5, 1, 1, [1, 9]⟩,
    ⟨[98], false, 0, 5, 1, 1, [1, 9]⟩,
    ⟨[99], false, 0, 0, 1, 1, [1, 3]⟩]

/-- Soundness of the Path Index against a store: every binding points
to an in-range directory node. -/
def ptiOkB (pti : PathIdx) (db : FileDb) : Bool :=
  pti.all fun kv =>
    match db[kv.2]? with
    | some e => e.is_dir
    | none => false

/-- Path Index soundness as a proposition. -/
def PtiOk (pti : PathIdx) (db : FileDb) : Prop := ptiOkB pti db = true

/-- State invariant of the downward splice loop: sound store and index,
and a parent address that is either the SENTINEL over the still-empty
store or a directory of the store. -/
def ArpcP (st : ArpcSt) : Prop :=
  DbInv st.db ∧ PtiOk st.pti st.db ∧
    ((st.db = [] ∧ st.parentIdx = SENTINEL) ∨
      (∃ p, st.db[st.parentIdx]? = some p ∧ p.is_dir = true))

/-- The store crawl_add produces when adding the new subdirectory [97]
of fs2 to the db1c catalog. -/
def db5c : FileDb :=
  [⟨[47], true, SENTINEL, 0, 1, 2, []⟩, ⟨[102], false, 0, 1, 3, 4, [1, 7]⟩,
    ⟨[97], true, 0, 0, 1, 1, []⟩]

/-- C8: is_archive returns true on archive.tar, archive.gz, archive.xz,
archive.tgz, archive.tar.gz and archive.tar.xz, false on archivezip,
archive.zip, archivegz, archivexz and archivetgz, and false in general on
any path without an extension. Names are spelt as their ASCII byte
strings (archive = [97,114,99,104,105,118,101], dot = 46). -/
theorem is_archive_exactly_tar_xz_gz_tgz :
    (is_archive [[97, 114, 99, 104, 105, 118, 101, 46, 116, 97, 114]] = true ∧
      is_archive [[97, 114, 99, 104, 105, 118, 101, 46, 103, 122]] = true ∧
      is_archive [[97, 114, 99, 104, 105, 118, 101, 46, 120, 122]] = true ∧
      is_archive [[97, 114, 99, 104, 105, 118, 101, 46, 116, 103, 122]] = true ∧
      is_archive [[97, 114, 99, 104, 105, 118, 101, 46, 116, 97, 114, 46, 103, 122]] = true ∧
      is_archive [[97, 114, 99, 104, 105, 118, 101, 46, 116, 97, 114, 46, 120, 122]] = true) ∧
    (is_archive [[97, 114, 99, 104, 105, 118, 101, 122, 105, 112]] = false ∧
      is_archive [[97, 114, 99, 104, 105, 118, 101, 46, 122, 105, 112]] = false ∧
      is_archive [[97, 114, 99, 104, 105, 118, 101, 103, 122]] = false ∧
      is_archive [[97, 114, 99, 104, 105, 118, 101, 120, 122]] = false ∧
      is_archive [[97, 114, 99, 104, 105, 118, 101, 116, 103, 122]] = false) ∧
    (∀ p : List Name, get_ext p = none → is_archive p = false) := by
  refine ⟨by decide, by decide, ?_⟩
  intro p h
  simp [is_archive, h]

/-- Witness for C8: the general no-extension clause applied at the
single-component path [97] (the file name "a"). -/
theorem is_archive_exactly_tar_xz_gz_tgz_witness :
    is_archive [[97]] = false :=
  is_archive_exactly_tar_xz_gz_tgz.2.2 [[97]] rfl

/-- C6 (amended): add_file_db_entry pushes the node and returns the
previous length as its address, and it fails exactly when the resulting
store size would exceed 2^32 - 2 nodes (the spec's maximum node count);
for every store whose resulting size stays within that bound, append
succeeds. -/
theorem add_file_db_entry_spec (db : FileDb) (e : FileDbEntry) :
    (db.length + 1 ≤ 2 ^ 32 - 2 →
      add_file_db_entry db e = .ok (db ++ [e], db.length)) ∧
    (2 ^ 32 - 2 < db.length + 1 →
      add_file_db_entry db e = .error .assertFailed) := by
  constructor
  · intro h
    have hlt : db.length < 2 ^ 32 - 2 := by omega
    simp only [add_file_db_entry]
    rw [if_pos hlt]
  · intro h
    have hlt : ¬ db.length < 2 ^ 32 - 2 := by omega
    simp only [add_file_db_entry]
    rw [if_neg hlt]

/-- Witness for C6: appending to the empty store succeeds and returns
address 0. -/
theorem add_file_db_entry_spec_witness :
    add_file_db_entry [] e0 = .ok ([e0], 0) :=
  (add_file_db_entry_spec [] e0).1 (by norm_num)

/-- Counterexample to C6 as stated: on a store of 2^32 - 2 nodes the
resulting size would be 2^32 - 1, which does not exceed 2^32 - 1, yet
the append fails on the source's assert file_db.len() < u32::MAX - 1. -/
theorem add_file_db_entry_boundary_counterexample :
    (List.replicate (2 ^ 32 - 2) e0).length + 1 = 2 ^ 32 - 1 ∧
    add_file_db_entry (List.replicate (2 ^ 32 - 2) e0) e0 =
      .error .assertFailed := by
  constructor
  · rw [List.length_replicate]
    norm_num
  · unfold add_file_db_entry
    rw [List.length_replicate, if_neg (lt_irrefl _)]

unseal fsWalk arpc_walk in
/-- Counterexample to C1 as stated: catalogue fs1 from its anchor with
crawl_initial, then run crawl_add on the very same root; instead of
leaving the store unchanged and completing, the call fails on the
existing-path assertion of add_root_path_components. -/
theorem crawl_add_recrawl_counterexample :
    (crawl_initial fs1 [[47]]).bind (fun db => crawl_add fs1 db [[47]]) =
      .error .existingPath := by
  decide

/-- Reduction of monadic bind on a successful Except value. -/
theorem except_bind_ok {eps alp bet : Type} (a : alp) (f : alp → Except eps bet) :
    (Except.ok a >>= f : Except eps bet) = f a := rfl

/-- Reduction of monadic bind on a failed Except value. -/
theorem except_bind_error {eps alp bet : Type} (er : eps) (f : alp → Except eps bet) :
    ((Except.error er : Except eps alp) >>= f) = Except.error er := rfl

/-- C1 (amended): crawl_add on a root directory that is already in the
catalog's Path Index never touches the store: it fails at once with the
existing-path assertion of add_root_path_components ("Existing path
added, not supported"), because crawl_add passes an empty
directory-to-files map and therefore always splices root components.
The idempotent skip of already-present entries applies to paths below a
genuinely new root (directories via the Path Index; the file-level skip
test runs only in update mode). -/
theorem crawl_add_existing_root_fails (fs : FsTree) (db : FileDb)
    (root : List Name) (pti : PathIdx)
    (hb : build_path_to_index_map db = .ok pti) (hr : root ≠ [])
    (hmem : (pti_lookup pti root).isSome = true) :
    crawl_add fs db root = .error .existingPath := by
  simp [crawl_add, hb, add_dir_recursive, hr, add_root_path_components,
    hmem, except_bind_ok, except_bind_error]

/-- Witness for C1: the store crawled from fs1 has the anchor bound in
its Path Index, so re-adding the anchor root fails. -/
theorem crawl_add_existing_root_fails_witness :
    crawl_add fs1 db1c [[47]] = .error .existingPath :=
  crawl_add_existing_root_fails fs1 db1c [[47]] [([[47]], 0)]
    (by decide) (by decide) (by decide)

/-- Counterexample to C2 as stated: dbA2 and dbB2 agree on every field
except entry names (in particular sizes, structure and the file digests
at each address coincide), the multisets of child digests of the
directory at address 1 are equal, and yet propagate_hashes gives that
directory two different hashes, because the child digests are hashed in
name-sorted order and the names order them differently. -/
theorem propagate_hashes_name_dependence_counterexample :
    dbA2.map (fun e => (e.is_dir, e.parent, e.size, e.hash)) =
      dbB2.map (fun e => (e.is_dir, e.parent, e.size, e.hash)) ∧
    ((children_of dbA2 1).map (hash_of dbA2)).Perm
      ((children_of dbB2 1).map (hash_of dbB2)) ∧
    (propagate_hashes dbA2).map (fun l => hash_of l 1) ≠
      (propagate_hashes dbB2).map (fun l => hash_of l 1) := by
  refine ⟨by decide, ?_, by decide⟩
  decide

/-- Counterexample to C3 as stated: on db3c the report of dedup prints
the (digest [1,1], size 10) pair group before the (digest [1,2], size 6)
triple group, yet the first saves 10 x (2 - 1) = 10 bytes and the
second 6 x (3 - 1) = 12 bytes, so the printed order is not descending
in size x (group_size - 1). The code sorts by size x group_size
(20 over 18 here) instead. -/
theorem dedup_ranking_counterexample :
    dedup db3c = .ok [(([1, 1], 10), [1, 2]), (([1, 2], 6), [3, 4, 5])] ∧
    10 * (2 - 1) < 6 * (3 - 1) := by
  exact ⟨by decide, by norm_num⟩

unseal fsWalk arpc_walk in
/-- Counterexample to C5 as stated: db0c satisfies the forest
invariants, yet extending it with add_dir_recursive (through crawl_add,
which passes the Path Index rebuilt from the store) over fs2 with the
root [[47],[97]] produces a store that violates them: no ancestor of
the new root is bound in the Path Index, so the splice starts a second
SENTINEL-parent chain at the non-zero address 1. -/
theorem add_dir_recursive_invariant_counterexample :
    DbInv db0c ∧
      (crawl_add fs2 db0c [[47], [97]]).map dbInvB = .ok false := by
  exact ⟨by decide, by decide⟩

/-- C10: when both endpoints of mv exist on the filesystem but at least
one of them is not a directory, mv falls through its single guarded
branch and returns: the outcome is the no-op that neither rewrites the
catalog file, nor changes any parent, nor executes a filesystem move. -/
theorem mv_non_directory_noop (fs : FsTree) (db : FileDb)
    (f t : List Name) (tf tt : FsTree)
    (hf : fsFind f fs = some tf) (ht : fsFind t fs = some tt)
    (hnd : ¬(tf.is_dir = true ∧ tt.is_dir = true)) :
    mv fs db f t = .noop := by
  have hcond : (tf.is_dir && tt.is_dir) = false := by
    cases hdf : tf.is_dir <;> cases hdt : tt.is_dir <;> simp_all
  simp [mv, hf, ht, hcond]

/-- Witness for C10: on fs3 the source endpoint [47,120] is a file and
the target [47,121] a directory; mv is a no-op. -/
theorem mv_non_directory_noop_witness :
    mv fs3 [] [[47], [120]] [[47], [121]] = .noop :=
  mv_non_directory_noop fs3 [] [[47], [120]] [[47], [121]]
    (.node [120] false 5 1 1 9 []) (.node [121] true 0 1 1 0 [])
    rfl rfl (by decide)

/-- C3 (amended): the printed report of dedup is ordered by
size x group_size (as u64), descending: every group printed before
another has a size x group_size value at least as large. The source
sorts ascending by that key with a stable sort and iterates in reverse;
the spec's size x (group_size - 1) is only displayed, not sorted by. -/
theorem dedup_ranked_by_size_times_group_size (db : FileDb)
    (r : List ((HashM × Nat) × List Nat)) (h : dedup db = .ok r) :
    r.Pairwise (fun g1 g2 => dedup_key g2 ≤ dedup_key g1) := by
  unfold dedup at h
  cases hph : propagate_hashes db with
  | error er => rw [hph, except_bind_error] at h; exact absurd h (by simp)
  | ok db' =>
    rw [hph, except_bind_ok] at h
    have hr : r = (List.insertionSort (fun a b => dedup_key a ≤ dedup_key b)
        (dedup_groups db')).reverse.filter (fun g => g.2.length != 1) := by
      have := h
      simp only [pure, Except.pure] at this
      exact (Except.ok.injEq _ _).mp this.symm
    haveI hto : IsTotal ((HashM × Nat) × List Nat)
        (fun a b => dedup_key a ≤ dedup_key b) := ⟨fun a b => Nat.le_total _ _⟩
    haveI htr : IsTrans ((HashM × Nat) × List Nat)
        (fun a b => dedup_key a ≤ dedup_key b) :=
      ⟨fun a b c hab hbc => Nat.le_trans hab hbc⟩
    have hs : (List.insertionSort (fun a b => dedup_key a ≤ dedup_key b)
        (dedup_groups db')).Sorted (fun a b => dedup_key a ≤ dedup_key b) :=
      List.sorted_insertionSort _ _
    have hrev : ((List.insertionSort (fun a b => dedup_key a ≤ dedup_key b)
        (dedup_groups db')).reverse).Pairwise
        (fun g1 g2 => dedup_key g2 ≤ dedup_key g1) := by
      rw [List.pairwise_reverse]
      exact hs
    rw [hr]
    exact hrev.sublist (List.filter_sublist _)

/-- Witness for C3 (amended): the two-group report on db3c is indeed
descending in size x group_size (20 then 18). -/
theorem dedup_ranked_by_size_times_group_size_witness :
    ([(([1, 1], 10), [1, 2]), (([1, 2], 6), [3, 4, 5])] :
        List ((HashM × Nat) × List Nat)).Pairwise
      (fun g1 g2 => dedup_key g2 ≤ dedup_key g1) :=
  dedup_ranked_by_size_times_group_size db3c _ (by decide)

/-- The fixed-width little-endian encoding has its stated width. -/
theorem encodeNat_length (w n : Nat) : (encodeNat w n).length = w := by
  induction w generalizing n with
  | zero => rfl
  | succ w ih => simp [encodeNat, ih]

/-- Decoding after encoding a fixed-width integer returns its value
modulo the width and the untouched rest of the stream. -/
theorem decodeNat_encodeNat (w n : Nat) (r : List Nat) :
    decodeNat w (encodeNat w n ++ r) = some (n % 256 ^ w, r) := by
  induction w generalizing n with
  | zero => simp [encodeNat, decodeNat, Nat.mod_one]
  | succ w ih =>
    simp only [encodeNat, decodeNat, List.cons_append, ih, Option.map_some']
    rw [pow_succ', Nat.mod_mul]

/-- Decoding after encoding a fixed-width integer below its bound
returns it exactly. -/
theorem decodeNat_encodeNat_of_lt (w n : Nat) (r : List Nat)
    (h : n < 256 ^ w) :
    decodeNat w (encodeNat w n ++ r) = some (n, r) := by
  rw [decodeNat_encodeNat, Nat.mod_eq_of_lt h]

/-- Round trip of the length-prefixed byte-string encoding. -/
theorem decodeBytes_encodeBytes (l r : List Nat) (h : l.length < 2 ^ 64) :
    decodeBytes (encodeBytes l ++ r) = some (l, r) := by
  have h' : l.length < 256 ^ 8 := by norm_num at h ⊢; omega
  simp only [encodeBytes, decodeBytes, List.append_assoc,
    decodeNat_encodeNat_of_lt _ _ _ h', Option.some_bind]
  rw [if_pos (by simp), List.take_left, List.drop_left]

/-- Round trip of the boolean encoding. -/
theorem decodeBool_encodeBool (b : Bool) (r : List Nat) :
    decodeBool (encodeBool b ++ r) = some (b, r) := by
  cases b <;> rfl

/-- Round trip of the record encoding under the Rust field-width
bounds. -/
theorem decodeEntry_encodeEntry (e : FileDbEntry) (r : List Nat)
    (h : wfEntryB e = true) :
    decodeEntry (encodeEntry e ++ r) = some (e, r) := by
  simp only [wfEntryB, Bool.and_eq_true, decide_eq_true_eq] at h
  obtain ⟨⟨⟨⟨⟨hn, hp⟩, hs⟩, hm⟩, ha⟩, hh⟩ := h
  have hp' : e.parent < 256 ^ 4 := by norm_num at hp ⊢; omega
  have hs' : e.size < 256 ^ 8 := by norm_num at hs ⊢; omega
  have hm' : e.modified < 256 ^ 8 := by norm_num at hm ⊢; omega
  have ha' : e.accessed < 256 ^ 8 := by norm_num at ha ⊢; omega
  simp only [decodeEntry, encodeEntry, List.append_assoc,
    decodeBytes_encodeBytes _ _ hn, decodeBool_encodeBool,
    decodeNat_encodeNat_of_lt _ _ _ hp', decodeNat_encodeNat_of_lt _ _ _ hs',
    decodeNat_encodeNat_of_lt _ _ _ hm', decodeNat_encodeNat_of_lt _ _ _ ha',
    decodeBytes_encodeBytes _ _ hh, Option.pure_def,
    Option.bind_eq_bind, Option.some_bind]

/-- Round trip of the counted record-list encoding. -/
theorem decodeEntries_flatten (db : FileDb) (r : List Nat)
    (h : db.all wfEntryB = true) :
    decodeEntries db.length ((db.map encodeEntry).flatten ++ r) =
      some (db, r) := by
  induction db generalizing r with
  | nil => rfl
  | cons e es ih =>
    simp only [List.all_cons, Bool.and_eq_true] at h
    simp only [List.length_cons, List.map_cons, List.flatten_cons,
      decodeEntries, List.append_assoc, decodeEntry_encodeEntry _ _ h.1,
      Option.bind_eq_bind, Option.some_bind, ih r h.2, Option.pure_def]

/-- C7: the serialization round trip. For every Node Store whose field
values fit the Rust widths (which every store built of u32/u64 fields
does by construction), saving with save_compressed and re-loading the
same bytes with load_compressed yields exactly the original store: same
length, equal entries, same order. The compression layer and the packed
record encoding live in external crates and are modelled per the §4.8
contract (deterministic packed encoding under a lossless codec). -/
theorem save_load_roundtrip (db : FileDb) (h : wfDbB db = true) :
    load_compressed (save_compressed db) = some db := by
  simp only [wfDbB, Bool.and_eq_true, decide_eq_true_eq] at h
  have hlen : db.length < 256 ^ 8 := by
    have := h.1; norm_num at this ⊢; omega
  simp only [load_compressed, save_compressed, zlib_compress, zlib_decompress,
    deserialize_db, serialize_db, decodeNat_encodeNat_of_lt _ _ _ hlen,
    Option.bind_eq_bind, Option.some_bind]
  have : (db.map encodeEntry).flatten = (db.map encodeEntry).flatten ++ [] := by
    simp
  rw [this, decodeEntries_flatten db [] h.2]
  rfl

/-- Witness for C7: round trip of the concrete store dbw. -/
theorem save_load_roundtrip_witness :
    load_compressed (save_compressed dbw) = some dbw :=
  save_load_roundtrip dbw (by decide)

/-- Success of mapE is pointwise success, in order. -/
theorem mapE_ok_iff {alp : Type} (f : Nat → Except Err alp) (l : List Nat)
    (out : List alp) :
    mapE f l = .ok out ↔ List.Forall₂ (fun x a => f x = .ok a) l out := by
  induction l generalizing out with
  | nil =>
    constructor
    · intro h
      unfold mapE at h
      cases out with
      | nil => exact .nil
      | cons b bs => exact absurd h (by simp)
    · intro h
      cases h
      rfl
  | cons x xs ih =>
    constructor
    · intro h
      unfold mapE at h
      cases hfx : f x with
      | error er => rw [hfx, except_bind_error] at h; exact absurd h (by simp)
      | ok a =>
        rw [hfx, except_bind_ok] at h
        cases hm : mapE f xs with
        | error er => rw [hm, except_bind_error] at h; exact absurd h (by simp)
        | ok as =>
          rw [hm, except_bind_ok] at h
          have hout : a :: as = out := by
            simpa [pure, Except.pure] using h
          subst hout
          exact .cons hfx ((ih as).mp hm)
    · intro h
      cases h with
      | cons hfx htail =>
        unfold mapE
        rw [hfx, except_bind_ok, (ih _).mpr htail, except_bind_ok]
        rfl

/-- Characterization of the item list of all_files_elsewhere: one item
per address, carrying the entry and its reconstructed path. -/
theorem afe_items_spec (db : FileDb)
    (items : List (Nat × FileDbEntry × List Name))
    (h : afe_items db = .ok items) :
    items.length = db.length ∧
      ∀ k, k < db.length →
        ∃ e p, db[k]? = some e ∧ get_full_path db k = .ok p ∧
          items[k]? = some (k, e, p) := by
  have h2 := (mapE_ok_iff _ _ _).mp h
  have hlen : (List.range db.length).length = items.length := h2.length_eq
  rw [List.length_range] at hlen
  refine ⟨hlen.symm, ?_⟩
  intro k hk
  have hget := (List.forall₂_iff_get.mp h2).2
  have hk1 : k < (List.range db.length).length := by simpa using hk
  have hk2 : k < items.length := by omega
  have hthis := hget k hk1 hk2
  simp only [List.get_eq_getElem, List.getElem_range] at hthis
  cases hdb : db[k]? with
  | none => rw [hdb] at hthis; exact absurd hthis (by simp)
  | some e =>
    rw [hdb] at hthis
    cases hp : get_full_path db k with
    | error er => rw [hp] at hthis; exact absurd hthis (by simp [Except.map])
    | ok p =>
      rw [hp] at hthis
      refine ⟨e, p, rfl, rfl, ?_⟩
      have hk3 : items[k] = (k, e, p) := by
        have h4 : (Except.ok (k, e, p) : Except Err (Nat × FileDbEntry × List Name)) =
            Except.ok items[k] := by
          simpa [Except.map] using hthis
        simpa using h4.symm
      rw [List.getElem?_eq_getElem hk2, hk3]

/-- Every item of the list is the unique item of its own address. -/
theorem afe_items_mem (db : FileDb)
    (items : List (Nat × FileDbEntry × List Name))
    (h : afe_items db = .ok items) :
    ∀ it ∈ items, it.1 < db.length ∧ db[it.1]? = some it.2.1 ∧
      get_full_path db it.1 = .ok it.2.2 ∧ items[it.1]? = some it := by
  intro it hmem
  obtain ⟨hlen, hchar⟩ := afe_items_spec db items h
  obtain ⟨k, hk, hget⟩ := List.mem_iff_getElem.mp hmem
  have hk' : k < db.length := by omega
  obtain ⟨e, p, hdb, hp, hit⟩ := hchar k hk'
  rw [List.getElem?_eq_getElem hk] at hit
  have hkit : items[k] = (k, e, p) := by simpa using hit
  rw [hkit] at hget
  subst hget
  exact ⟨hk', hdb, hp, by rw [List.getElem?_eq_getElem hk, hkit]⟩

/-- Lookup after a bump: the bumped key gains the new index at the end
of its list, all other keys are untouched. -/
theorem h2i_lookup_bump (m : List (HashM × List Nat)) (hk : HashM) (j : Nat)
    (h' : HashM) :
    h2i_lookup (h2i_bump m hk j) h' =
      if h' = hk then some ((h2i_lookup m hk).getD [] ++ [j])
      else h2i_lookup m h' := by
  induction m with
  | nil =>
    simp only [h2i_bump, h2i_lookup]
    by_cases hc : hk = h'
    · subst hc; simp
    · rw [if_neg hc, if_neg (fun hh => hc hh.symm)]
  | cons kv rest ih =>
    obtain ⟨k, v⟩ := kv
    by_cases hkh : k = hk
    · subst hkh
      by_cases hk' : k = h'
      · subst hk'
        simp [h2i_bump, h2i_lookup]
      · simp [h2i_bump, h2i_lookup, hk', Ne.symm hk']
    · by_cases hk' : k = h'
      · subst hk'
        simp [h2i_bump, h2i_lookup, hkh, Ne.symm hkh, ih]
      · simp [h2i_bump, h2i_lookup, hkh, hk', Ne.symm hk', ih]

/-- Content of the hash-to-indices map built by all_files_elsewhere over
any starting map: the indices of the outside items carrying the looked-up
digest, appended in traversal order. -/
theorem afe_build_go (T : List Name)
    (items : List (Nat × FileDbEntry × List Name))
    (m0 : List (HashM × List Nat)) (h' : HashM) :
    (h2i_lookup
        (items.foldl
          (fun m it => if afe_outside T it then h2i_bump m it.2.1.hash it.1
            else m) m0) h').getD [] =
      (h2i_lookup m0 h').getD [] ++
        (items.filter
          (fun it => afe_outside T it && (it.2.1.hash == h'))).map (·.1) := by
  induction items generalizing m0 with
  | nil => simp
  | cons it rest ih =>
    simp only [List.foldl_cons, List.filter_cons]
    by_cases ho : afe_outside T it
    · rw [if_pos ho, ih, h2i_lookup_bump]
      by_cases hh : h' = it.2.1.hash
      · rw [if_pos hh, hh]
        have : (afe_outside T it && (it.2.1.hash == it.2.1.hash)) = true := by
          simp [ho]
        rw [this]
        simp
      · rw [if_neg hh]
        have hc : (afe_outside T it && (it.2.1.hash == h')) = false := by
          simp only [Bool.and_eq_false_iff, beq_eq_false_iff_ne, ne_eq]
          exact Or.inr (fun hc => hh hc.symm)
        simp [hc]
    · rw [if_neg ho, ih]
      have hc : (afe_outside T it && (it.2.1.hash == h')) = false := by
        simp [ho]
      simp [hc]

/-- Membership in the built map. -/
theorem afe_build_mem (T : List Name)
    (items : List (Nat × FileDbEntry × List Name)) (h' : HashM) (j : Nat) :
    j ∈ (h2i_lookup (afe_build T items) h').getD [] ↔
      ∃ it ∈ items, afe_outside T it = true ∧ it.2.1.hash = h' ∧
        it.1 = j := by
  unfold afe_build
  rw [afe_build_go]
  simp only [h2i_lookup, Option.getD_none, List.nil_append, List.mem_map,
    List.mem_filter, Bool.and_eq_true, beq_iff_eq]
  constructor
  · rintro ⟨it, ⟨hmem, ho, hh⟩, h1⟩
    exact ⟨it, hmem, ho, hh, h1⟩
  · rintro ⟨it, hmem, ho, hh, h1⟩
    exact ⟨it, ⟨hmem, ho, hh⟩, h1⟩

/-- The covered test holds exactly when some outside item shares the
digest and the size. -/
theorem afe_covered_iff (db : FileDb) (T : List Name)
    (items : List (Nat × FileDbEntry × List Name))
    (hI : afe_items db = .ok items)
    (it : Nat × FileDbEntry × List Name) :
    afe_covered db (afe_build T items) it = true ↔
      ∃ jt ∈ items, afe_outside T jt = true ∧ jt.2.1.hash = it.2.1.hash ∧
        jt.2.1.size = it.2.1.size := by
  unfold afe_covered
  constructor
  · intro h
    cases hlk : h2i_lookup (afe_build T items) it.2.1.hash with
    | none => rw [hlk] at h; exact absurd h (by simp)
    | some lst =>
      rw [hlk] at h
      simp only [List.any_eq_true] at h
      obtain ⟨j, hj, hsz⟩ := h
      have hj' : j ∈ (h2i_lookup (afe_build T items) it.2.1.hash).getD [] := by
        rw [hlk]; simpa using hj
      obtain ⟨jt, hjt, ho, hh, hj1⟩ := (afe_build_mem T items _ j).mp hj'
      refine ⟨jt, hjt, ho, hh, ?_⟩
      obtain ⟨_, hdb, _, _⟩ := afe_items_mem db items hI jt hjt
      rw [hj1] at hdb
      rw [hdb] at hsz
      have := of_decide_eq_true (by simpa using hsz)
      simpa using this
  · rintro ⟨jt, hjt, ho, hh, hsz⟩
    have hj' : jt.1 ∈ (h2i_lookup (afe_build T items) it.2.1.hash).getD [] :=
      (afe_build_mem T items _ jt.1).mpr ⟨jt, hjt, ho, hh, rfl⟩
    cases hlk : h2i_lookup (afe_build T items) it.2.1.hash with
    | none => rw [hlk] at hj'; simp at hj'
    | some lst =>
      rw [hlk] at hj'
      simp only [Option.getD_some] at hj'
      simp only [List.any_eq_true]
      refine ⟨jt.1, hj', ?_⟩
      obtain ⟨_, hdb, _, _⟩ := afe_items_mem db items hI jt hjt
      rw [hdb]
      simpa using hsz

/-- C4: classification of all_files_elsewhere. For every file node under
the target directory T with non-zero size, it is reported covered
exactly when some file node outside T with non-zero size carries the
same digest and the same byte size, and reported missing exactly
otherwise; directory nodes and empty files are never reported in either
list. -/
theorem all_files_elsewhere_spec (db : FileDb) (T : List Name)
    (miss cov : List Nat)
    (h : all_files_elsewhere db T = .ok (miss, cov)) :
    ∀ i e p, db[i]? = some e → get_full_path db i = .ok p →
      ((T <+: p → e.is_dir = false → e.size ≠ 0 →
        ((i ∈ cov ↔ ∃ j e2 p2, db[j]? = some e2 ∧
            get_full_path db j = .ok p2 ∧ ¬(T <+: p2) ∧ e2.is_dir = false ∧
            e2.size ≠ 0 ∧ e2.hash = e.hash ∧ e2.size = e.size) ∧
          (i ∈ miss ↔ ¬∃ j e2 p2, db[j]? = some e2 ∧
            get_full_path db j = .ok p2 ∧ ¬(T <+: p2) ∧ e2.is_dir = false ∧
            e2.size ≠ 0 ∧ e2.hash = e.hash ∧ e2.size = e.size))) ∧
        (e.is_dir = true ∨ e.size = 0 → i ∉ cov ∧ i ∉ miss)) := by
  intro i e p hdb hp
  unfold all_files_elsewhere at h
  cases hI : afe_items db with
  | error er => rw [hI, except_bind_error] at h; exact absurd h (by simp)
  | ok items =>
    rw [hI, except_bind_ok] at h
    have hpair : ((items.filter (afe_in_scope T)).filter
          (fun it => !afe_covered db (afe_build T items) it)).map (·.1) = miss ∧
        ((items.filter (afe_in_scope T)).filter
          (fun it => afe_covered db (afe_build T items) it)).map (·.1) = cov := by
      simpa [pure, Except.pure, Prod.mk.injEq] using h
    obtain ⟨hmiss, hcov⟩ := hpair
    obtain ⟨hlenI, hcharI⟩ := afe_items_spec db items hI
    have hi_lt : i < db.length := (List.getElem?_eq_some.mp hdb).1
    obtain ⟨e', p', hdb', hp', hit⟩ := hcharI i hi_lt
    have he' : e' = e := by rw [hdb] at hdb'; exact (Option.some.injEq _ _).mp hdb'.symm
    have hpp : p' = p := by rw [hp] at hp'; simpa using hp'.symm
    rw [he', hpp] at hit
    have hmem_i : (i, e, p) ∈ items := List.getElem?_mem hit
    have huniq : ∀ it ∈ items, it.1 = i → it = (i, e, p) := by
      intro it hmem h1
      obtain ⟨_, hdbit, hpit, _⟩ := afe_items_mem db items hI it hmem
      rw [h1] at hdbit hpit
      have he2 : it.2.1 = e := by
        rw [hdb] at hdbit
        exact (Option.some.injEq _ _).mp hdbit.symm
      have hp2 : it.2.2 = p := by
        rw [hp] at hpit
        simpa using hpit.symm
      have : it = (it.1, it.2.1, it.2.2) := rfl
      rw [this, h1, he2, hp2]
    have hx : (∃ jt ∈ items, afe_outside T jt = true ∧
          jt.2.1.hash = e.hash ∧ jt.2.1.size = e.size) ↔
        (∃ j e2 p2, db[j]? = some e2 ∧ get_full_path db j = .ok p2 ∧
          ¬(T <+: p2) ∧ e2.is_dir = false ∧ e2.size ≠ 0 ∧
          e2.hash = e.hash ∧ e2.size = e.size) := by
      constructor
      · rintro ⟨jt, hjt, ho, hh, hs⟩
        obtain ⟨hjlt, hjdb, hjp, _⟩ := afe_items_mem db items hI jt hjt
        simp only [afe_outside, Bool.and_eq_true, Bool.not_eq_true',
          bne_iff_ne, ne_eq, List.isPrefixOf_iff_prefix] at ho
        obtain ⟨⟨hd2, hs0⟩, hpre⟩ := ho
        exact ⟨jt.1, jt.2.1, jt.2.2, hjdb, hjp,
          by rw [← List.isPrefixOf_iff_prefix]; simp [hpre], hd2, hs0, hh, hs⟩
      · rintro ⟨j, e2, p2, hjdb, hjp, hpre, hdir2, hsz2, hh, hs⟩
        have hj_lt : j < db.length := (List.getElem?_eq_some.mp hjdb).1
        obtain ⟨e2', p2', hdb2, hp2, hit2⟩ := hcharI j hj_lt
        have he2' : e2' = e2 := by
          rw [hjdb] at hdb2; exact (Option.some.injEq _ _).mp hdb2.symm
        have hpp2 : p2' = p2 := by rw [hjp] at hp2; simpa using hp2.symm
        rw [he2', hpp2] at hit2
        refine ⟨(j, e2, p2), List.getElem?_mem hit2, ?_, hh, hs⟩
        simp only [afe_outside, Bool.and_eq_true, Bool.not_eq_true',
          bne_iff_ne, ne_eq, List.isPrefixOf_iff_prefix]
        refine ⟨⟨hdir2, hsz2⟩, ?_⟩
        rw [← Bool.not_eq_true, List.isPrefixOf_iff_prefix]
        exact hpre
    have hcov_item : afe_covered db (afe_build T items) (i, e, p) = true ↔
        (∃ j e2 p2, db[j]? = some e2 ∧ get_full_path db j = .ok p2 ∧
          ¬(T <+: p2) ∧ e2.is_dir = false ∧ e2.size ≠ 0 ∧
          e2.hash = e.hash ∧ e2.size = e.size) :=
      (afe_covered_iff db T items hI (i, e, p)).trans hx
    have hmem_cov : ∀ q, q ∈ cov ↔ ∃ it ∈ items,
        afe_in_scope T it = true ∧
        afe_covered db (afe_build T items) it = true ∧ it.1 = q := by
      intro q
      rw [← hcov]
      simp only [List.mem_map, List.mem_filter]
      constructor
      · rintro ⟨it, ⟨⟨hmem, hsc⟩, hcv⟩, h1⟩
        exact ⟨it, hmem, hsc, hcv, h1⟩
      · rintro ⟨it, hmem, hsc, hcv, h1⟩
        exact ⟨it, ⟨⟨hmem, hsc⟩, hcv⟩, h1⟩
    have hmem_miss : ∀ q, q ∈ miss ↔ ∃ it ∈ items,
        afe_in_scope T it = true ∧
        afe_covered db (afe_build T items) it = false ∧ it.1 = q := by
      intro q
      rw [← hmiss]
      simp only [List.mem_map, List.mem_filter, Bool.not_eq_true']
      constructor
      · rintro ⟨it, ⟨⟨hmem, hsc⟩, hcv⟩, h1⟩
        exact ⟨it, hmem, hsc, hcv, h1⟩
      · rintro ⟨it, hmem, hsc, hcv, h1⟩
        exact ⟨it, ⟨⟨hmem, hsc⟩, hcv⟩, h1⟩
    constructor
    · intro hTp hdir hsz
      have hscope : afe_in_scope T (i, e, p) = true := by
        simp only [afe_in_scope, Bool.and_eq_true, bne_iff_ne, ne_eq,
          Bool.not_eq_true', List.isPrefixOf_iff_prefix]
        exact ⟨⟨hTp, hdir⟩, hsz⟩
      constructor
      · rw [hmem_cov i]
        constructor
        · rintro ⟨it, hmem, _, hcv, h1⟩
          rw [huniq it hmem h1] at hcv
          exact hcov_item.mp hcv
        · intro hex
          exact ⟨(i, e, p), hmem_i, hscope, hcov_item.mpr hex, rfl⟩
      · rw [hmem_miss i]
        constructor
        · rintro ⟨it, hmem, _, hcv, h1⟩
          rw [huniq it hmem h1] at hcv
          intro hex
          rw [hcov_item.mpr hex] at hcv
          exact absurd hcv (by simp)
        · intro hnex
          refine ⟨(i, e, p), hmem_i, hscope, ?_, rfl⟩
          cases hcv : afe_covered db (afe_build T items) (i, e, p) with
          | false => rfl
          | true => exact absurd (hcov_item.mp hcv) hnex
    · intro hde
      constructor
      · intro hq
        obtain ⟨it, hmem, hsc, _, h1⟩ := (hmem_cov i).mp hq
        rw [huniq it hmem h1] at hsc
        simp only [afe_in_scope, Bool.and_eq_true, bne_iff_ne, ne_eq,
          Bool.not_eq_true', List.isPrefixOf_iff_prefix] at hsc
        rcases hde with hd | hs0
        · rw [hsc.1.2] at hd; exact absurd hd (by simp)
        · exact hsc.2 hs0
      · intro hq
        obtain ⟨it, hmem, hsc, _, h1⟩ := (hmem_miss i).mp hq
        rw [huniq it hmem h1] at hsc
        simp only [afe_in_scope, Bool.and_eq_true, bne_iff_ne, ne_eq,
          Bool.not_eq_true', List.isPrefixOf_iff_prefix] at hsc
        rcases hde with hd | hs0
        · rw [hsc.1.2] at hd; exact absurd hd (by simp)
        · exact hsc.2 hs0

/-- Witness for C4: on dbw with target [[47],[116]], the file at
address 2 (size 5, digest [1,9]) is covered by the file at address 3
outside the target. -/
theorem all_files_elsewhere_spec_witness :
    (2 : Nat) ∈ ([2] : List Nat) ∧
      ∃ j e2 p2, dbw[j]? = some e2 ∧ get_full_path dbw j = .ok p2 ∧
        ¬([[47], [116]] <+: p2) ∧ e2.is_dir = false ∧ e2.size ≠ 0 ∧
        e2.hash = ([1, 9] : HashM) ∧ e2.size = 5 := by
  have hmain := all_files_elsewhere_spec dbw [[47], [116]] [] [2] (by decide)
  have h2 := hmain 2 ⟨[97], false, 1, 5, 1, 1, [1, 9]⟩ [[47], [116], [97]]
    (by decide) (by decide)
  have h3 := (h2.1 (by decide) (by decide) (by decide)).1.mp (by decide)
  exact ⟨by decide, h3⟩

/-- Invariant preservation through foldlM over Except. -/
theorem foldlM_except_inv {alp bet : Type} (f : bet → alp → Except Err bet)
    (P : bet → Prop)
    (hstep : ∀ b a b', P b → f b a = .ok b' → P b') :
    ∀ (l : List alp) (b b' : bet), P b → l.foldlM f b = .ok b' → P b' := by
  intro l
  induction l with
  | nil =>
    intro b b' hb h
    rw [List.foldlM_nil] at h
    have hb' : b = b' := by simpa [pure, Except.pure] using h
    rwa [← hb']
  | cons a t ih =>
    intro b b' hb h
    rw [List.foldlM_cons] at h
    cases hfa : f b a with
    | error er => rw [hfa, except_bind_error] at h; exact absurd h (by simp)
    | ok b1 =>
      rw [hfa, except_bind_ok] at h
      exact ih b1 b' (hstep b a b1 hb hfa) h

/-- Congruence of foldlM over Except for pointwise-equal step
functions. -/
theorem foldlM_except_congr {alp bet : Type}
    (f g : bet → alp → Except Err bet) :
    ∀ (l : List alp) (b : bet), (∀ st a, a ∈ l → f st a = g st a) →
      l.foldlM f b = l.foldlM g b := by
  intro l
  induction l with
  | nil => intro b _; rfl
  | cons a t ih =>
    intro b h
    rw [List.foldlM_cons, List.foldlM_cons, h b a (List.mem_cons_self a t)]
    cases hg : g b a with
    | error er => rw [except_bind_error, except_bind_error]
    | ok b1 =>
      rw [except_bind_ok, except_bind_ok]
      exact ih b1 (fun st x hx => h st x (List.mem_cons_of_mem _ hx))

/-- Reduction of Except.map on a success. -/
theorem except_map_ok {eps alp bet : Type} (f : alp → bet) (a : alp) :
    (Except.ok a : Except eps alp).map f = .ok (f a) := rfl

/-- Reduction of Except.map on a failure. -/
theorem except_map_error {eps alp bet : Type} (f : alp → bet) (er : eps) :
    (Except.error er : Except eps alp).map f = .error er := rfl

/-- The directory level step reads only the structure (is_dir, parent)
of the store. -/
theorem dir_levels_step_congr (dba dbb : FileDb)
    (hsh : ∀ i : Nat, (dba[i]?).map (fun e => (e.is_dir, e.parent)) =
      (dbb[i]?).map (fun e => (e.is_dir, e.parent)))
    (st : List Nat × Nat) (i : Nat) :
    dir_levels_step dba st i = dir_levels_step dbb st i := by
  have h := hsh i
  obtain ⟨lv, mx⟩ := st
  cases h1 : dba[i]? with
  | none =>
    rw [h1] at h
    cases h2 : dbb[i]? with
    | none => simp only [dir_levels_step, h1, h2]
    | some e2 => rw [h2] at h; exact absurd h (by simp)
  | some e1 =>
    rw [h1] at h
    cases h2 : dbb[i]? with
    | none => rw [h2] at h; exact absurd h (by simp)
    | some e2 =>
      rw [h2] at h
      simp only [Option.map_some', Option.some.injEq, Prod.mk.injEq] at h
      simp only [dir_levels_step, h1, h2, h.1, h.2]

/-- Resetting directory hashes does not change structure. -/
theorem reset_dir_hashes_shape (db : FileDb) (i : Nat) :
    ((reset_dir_hashes db)[i]?).map (fun e => (e.is_dir, e.parent)) =
      (db[i]?).map (fun e => (e.is_dir, e.parent)) := by
  unfold reset_dir_hashes
  rw [List.getElem?_map]
  cases db[i]? with
  | none => rfl
  | some e => by_cases hd : e.is_dir <;> simp [hd]

/-- Resetting directory hashes does not change the length. -/
theorem reset_dir_hashes_length (db : FileDb) :
    (reset_dir_hashes db).length = db.length := by
  simp [reset_dir_hashes]

/-- Resetting directory hashes does not change names. -/
theorem name_of_reset (db : FileDb) (i : Nat) :
    name_of (reset_dir_hashes db) i = name_of db i := by
  unfold name_of reset_dir_hashes
  rw [List.getElem?_map]
  cases db[i]? with
  | none => rfl
  | some e => by_cases hd : e.is_dir <;> simp [hd]

/-- Resetting directory hashes does not change child lists. -/
theorem children_of_reset (db : FileDb) (d : Nat) :
    children_of (reset_dir_hashes db) d = children_of db d := by
  unfold children_of
  rw [reset_dir_hashes_length]
  apply List.filter_congr
  intro i _
  unfold reset_dir_hashes
  rw [List.getElem?_map]
  cases db[i]? with
  | none => rfl
  | some e => by_cases hd : e.is_dir <;> simp [hd]

/-- Ordered insertion only depends on the relation pointwise. -/
theorem orderedInsert_rel_congr {alp : Type} (r s : alp → alp → Prop)
    [DecidableRel r] [DecidableRel s] (hrs : ∀ a b, r a b ↔ s a b) :
    ∀ (l : List alp) (a : alp),
      List.orderedInsert r a l = List.orderedInsert s a l := by
  intro l
  induction l with
  | nil => intro a; rfl
  | cons b t ih =>
    intro a
    unfold List.orderedInsert
    by_cases h : r a b
    · rw [if_pos h, if_pos ((hrs a b).mp h)]
    · rw [if_neg h, if_neg (fun hs2 => h ((hrs a b).mpr hs2)), ih]

/-- Insertion sort only depends on the relation pointwise. -/
theorem insertionSort_rel_congr {alp : Type} (r s : alp → alp → Prop)
    [DecidableRel r] [DecidableRel s] (hrs : ∀ a b, r a b ↔ s a b) :
    ∀ l : List alp, List.insertionSort r l = List.insertionSort s l := by
  intro l
  induction l with
  | nil => rfl
  | cons a t ih =>
    unfold List.insertionSort
    rw [ih, orderedInsert_rel_congr r s hrs]

/-- Resetting directory hashes does not change the name-sorted child
order. -/
theorem sort_children_reset (db : FileDb) (l : List Nat) :
    sort_children (reset_dir_hashes db) l = sort_children db l := by
  unfold sort_children
  apply insertionSort_rel_congr
  intro a b
  rw [name_of_reset, name_of_reset]

/-- The bottom-up hash step reads the store only through the name-sorted
child list. -/
theorem hash_step_congr (dba dbb : FileDb) (levels : List Nat) (d : Nat)
    (hs : List HashM) (i : Nat)
    (hi : sort_children dba (children_of dba i) = sort_children dbb (children_of dbb i)) :
    hash_step dba levels d hs i = hash_step dbb levels d hs i := by
  unfold hash_step
  rw [hi]

/-- The level sweep keeps the levels vector at store length. -/
theorem compute_dir_levels_length (db : FileDb) (levels : List Nat)
    (maxL : Nat) (h : compute_dir_levels db = .ok (levels, maxL)) :
    levels.length = db.length := by
  unfold compute_dir_levels at h
  by_cases h0 : db.length = 0
  · rw [if_pos h0] at h; exact absurd h (by simp)
  · rw [if_neg h0] at h
    have := foldlM_except_inv (dir_levels_step db)
      (fun st => st.1.length = db.length)
      (by
        intro b a b' hb hstep
        unfold dir_levels_step at hstep
        split at hstep
        · exact absurd hstep (by simp)
        · split at hstep
          · split at hstep
            · exact absurd hstep (by simp)
            · split at hstep
              · exact absurd hstep (by simp)
              · simp only [] at hstep
                split at hstep
                · exact absurd hstep (by simp)
                · have hb2 := (Except.ok.injEq _ _).mp hstep
                  rw [← hb2]
                  simpa using hb
          · have hb2 := (Except.ok.injEq _ _).mp hstep
            rw [← hb2]
            exact hb)
      _ _ _ (by simp) h
    exact this

/-- Each hash step keeps the hash column length. -/
theorem hash_step_length (db : FileDb) (levels : List Nat) (d : Nat)
    (hs : List HashM) (i : Nat) (hs' : List HashM)
    (h : hash_step db levels d hs i = .ok hs') : hs'.length = hs.length := by
  unfold hash_step at h
  split at h
  · exact absurd h (by simp)
  · split at h
    · simp only [] at h
      cases hm : (sort_children db (children_of db i)).mapM
          (fun j => match hs[j]? with
            | some x => Except.ok x
            | none => Except.error Err.oob) with
      | error er => rw [hm, except_bind_error] at h; exact absurd h (by simp)
      | ok childHs =>
        rw [hm, except_bind_ok] at h
        split at h
        · exact absurd h (by simp)
        · have hset : hs.set i (blake3_of_hashes childHs) = hs' := by
            simpa using h
          rw [← hset]
          simp
    · have hok : hs = hs' := by simpa using h
      rw [← hok]

/-- A level pass keeps the hash column length. -/
theorem hash_level_pass_length (db : FileDb) (levels : List Nat)
    (hs : List HashM) (d : Nat) (hs' : List HashM)
    (h : hash_level_pass db levels hs d = .ok hs') :
    hs'.length = hs.length := by
  unfold hash_level_pass at h
  exact foldlM_except_inv _ (fun x => x.length = hs.length)
    (fun b a b' hb hstep => by
      have hb' : b.length = hs.length := hb
      show b'.length = hs.length
      rw [hash_step_length db levels d b a b' hstep]
      exact hb')
    _ _ _ rfl h

/-- The whole bottom-up fold keeps the hash column length. -/
theorem hash_fold_length (db : FileDb) (levels : List Nat)
    (hs0 : List HashM) (ds : List Nat) (hs' : List HashM)
    (h : ds.foldlM (hash_level_pass db levels) hs0 = .ok hs') :
    hs'.length = hs0.length :=
  foldlM_except_inv _ (fun x => x.length = hs0.length)
    (fun b a b' hb hstep => by
      have hb' : b.length = hs0.length := hb
      show b'.length = hs0.length
      rw [hash_level_pass_length db levels b a b' hstep]
      exact hb')
    _ _ _ rfl h

/-- Writing a hash column into a store of the same length reads back as
the column. -/
theorem zip_hashes_map_hash :
    ∀ (db : FileDb) (hs : List HashM), hs.length = db.length →
      (zip_hashes db hs).map (fun e => e.hash) = hs := by
  intro db
  induction db with
  | nil =>
    intro hs h
    cases hs with
    | nil => rfl
    | cons x xs => simp at h
  | cons e t ih =>
    intro hs h
    cases hs with
    | nil => simp at h
    | cons x xs =>
      simp only [zip_hashes, List.zipWith_cons_cons, List.map_cons]
      have hxs := ih xs (by simpa using h)
      unfold zip_hashes at hxs
      rw [hxs]

/-- C2 (amended): the hash column computed by propagate_hashes is a
function of the store's structure (is_dir and parent at every address),
its file digests, and the name-sorted order of every child list. Sizes
never influence directory hashes, and names influence them only through
the induced sort order: two stores agreeing on structure, file digests
and sorted child orders receive identical hash columns (and identical
failures). -/
theorem propagate_hashes_determined_by_sorted_child_digests
    (db1 db2 : FileDb) (hlen : db1.length = db2.length)
    (hshape : ∀ i : Nat, i < db1.length →
      (db1[i]?).map (fun e => (e.is_dir, e.parent)) =
        (db2[i]?).map (fun e => (e.is_dir, e.parent)))
    (hfh : ∀ i : Nat, i < db1.length →
      (db1[i]?).map (fun e => if e.is_dir then EMPTY_HASH else e.hash) =
        (db2[i]?).map (fun e => if e.is_dir then EMPTY_HASH else e.hash))
    (hsort : ∀ d : Nat, d < db1.length →
      sort_children db1 (children_of db1 d) =
        sort_children db2 (children_of db2 d)) :
    (propagate_hashes db1).map (fun l => l.map (fun e => e.hash)) =
      (propagate_hashes db2).map (fun l => l.map (fun e => e.hash)) := by
  have hshape' : ∀ i : Nat,
      (db1[i]?).map (fun e => (e.is_dir, e.parent)) =
        (db2[i]?).map (fun e => (e.is_dir, e.parent)) := by
    intro i
    by_cases hi : i < db1.length
    · exact hshape i hi
    · rw [List.getElem?_eq_none (by omega), List.getElem?_eq_none (by omega)]
  have hshapeR : ∀ i : Nat,
      ((reset_dir_hashes db1)[i]?).map (fun e => (e.is_dir, e.parent)) =
        ((reset_dir_hashes db2)[i]?).map (fun e => (e.is_dir, e.parent)) := by
    intro i
    rw [reset_dir_hashes_shape, reset_dir_hashes_shape]
    exact hshape' i
  have hcdl : compute_dir_levels (reset_dir_hashes db1) =
      compute_dir_levels (reset_dir_hashes db2) := by
    unfold compute_dir_levels
    rw [reset_dir_hashes_length, reset_dir_hashes_length, hlen]
    by_cases h0 : db2.length = 0
    · rw [if_pos h0, if_pos h0]
    · rw [if_neg h0, if_neg h0]
      exact foldlM_except_congr _ _ _ _
        (fun st a _ => dir_levels_step_congr _ _ hshapeR st a)
  have hhs0 : (reset_dir_hashes db1).map (fun e => e.hash) =
      (reset_dir_hashes db2).map (fun e => e.hash) := by
    apply List.ext_getElem?
    intro i
    rw [List.getElem?_map, List.getElem?_map]
    have hsh := hshape' i
    unfold reset_dir_hashes
    rw [List.getElem?_map, List.getElem?_map]
    cases h1 : db1[i]? with
    | none =>
      cases h2 : db2[i]? with
      | none => rfl
      | some e2 => rw [h1, h2] at hsh; exact absurd hsh (by simp)
    | some e1 =>
      cases h2 : db2[i]? with
      | none => rw [h1, h2] at hsh; exact absurd hsh (by simp)
      | some e2 =>
        rw [h1, h2] at hsh
        simp only [Option.map_some', Option.some.injEq, Prod.mk.injEq] at hsh
        have hi : i < db1.length := by
          have := List.getElem?_eq_some.mp h1
          exact this.1
        have hfhi := hfh i hi
        rw [h1, h2] at hfhi
        simp only [Option.map_some', Option.some.injEq] at hfhi
        by_cases hd : e1.is_dir = true
        · have hd2 : e2.is_dir = true := by rw [← hsh.1]; exact hd
          simp [hd, hd2]
        · have hd1 : e1.is_dir = false := by simpa using hd
          have hd2 : e2.is_dir = false := by rw [← hsh.1]; exact hd1
          rw [hd1, hd2] at hfhi
          simp only [Bool.false_eq_true, if_false] at hfhi
          simp [hd1, hd2, hfhi]
  have hsortR : ∀ i : Nat, i < (reset_dir_hashes db1).length →
      sort_children (reset_dir_hashes db1)
          (children_of (reset_dir_hashes db1) i) =
        sort_children (reset_dir_hashes db2)
          (children_of (reset_dir_hashes db2) i) := by
    intro i hi
    rw [children_of_reset, children_of_reset, sort_children_reset,
      sort_children_reset]
    rw [reset_dir_hashes_length] at hi
    exact hsort i hi
  unfold propagate_hashes
  simp only []
  rw [hcdl]
  cases hres : compute_dir_levels (reset_dir_hashes db2) with
  | error er => rfl
  | ok lvml =>
    obtain ⟨levels, maxL⟩ := lvml
    simp only [except_bind_ok]
    have hlv2 : levels.length = (reset_dir_hashes db2).length :=
      compute_dir_levels_length _ _ _ hres
    have hlv1 : levels.length = (reset_dir_hashes db1).length := by
      rw [hlv2, reset_dir_hashes_length, reset_dir_hashes_length, hlen]
    by_cases hml : maxL < MAX16 - 1
    · rw [if_pos hml, if_pos hml]
      have hfold : (rev_levels maxL).foldlM
          (hash_level_pass (reset_dir_hashes db1) levels)
          ((reset_dir_hashes db1).map (fun e => e.hash)) =
          (rev_levels maxL).foldlM
          (hash_level_pass (reset_dir_hashes db2) levels)
          ((reset_dir_hashes db2).map (fun e => e.hash)) := by
        rw [hhs0]
        apply foldlM_except_congr
        intro st d _
        unfold hash_level_pass
        apply foldlM_except_congr
        intro acc i hi
        have hi' : i < levels.length := List.mem_range.mp hi
        exact hash_step_congr _ _ levels d acc i (hsortR i (by omega))
      rw [hfold]
      cases hfr : (rev_levels maxL).foldlM
          (hash_level_pass (reset_dir_hashes db2) levels)
          ((reset_dir_hashes db2).map (fun e => e.hash)) with
      | error er => rfl
      | ok hs =>
        simp only [except_bind_ok]
        by_cases hall : ((hs.drop 1).all (fun h => h != EMPTY_HASH)) = true
        · rw [if_pos hall, if_pos hall]
          have hhl : hs.length = (reset_dir_hashes db2).length := by
            rw [hash_fold_length _ _ _ _ _ hfr]
            simp
          have hhl1 : hs.length = (reset_dir_hashes db1).length := by
            rw [hhl, reset_dir_hashes_length, reset_dir_hashes_length, hlen]
          simp only [pure, Except.pure, except_map_ok]
          rw [zip_hashes_map_hash _ _ hhl1, zip_hashes_map_hash _ _ hhl]
        · rw [if_neg hall, if_neg hall]
    · rw [if_neg hml, if_neg hml]

/-- Witness for C2 (amended): dbA2s changes every size of dbA2 while
keeping names, structure and file digests; the computed hash columns
coincide. -/
theorem propagate_hashes_determined_witness :
    (propagate_hashes dbA2).map (fun l => l.map (fun e => e.hash)) =
      (propagate_hashes dbA2s).map (fun l => l.map (fun e => e.hash)) :=
  propagate_hashes_determined_by_sorted_child_digests dbA2 dbA2s
    (by decide) (by decide) (by decide) (by decide)

/-- Unpacking the executable forest-invariant check. -/
theorem DbInv_spec (db : FileDb) (h : DbInv db) :
    ∀ i e, db[i]? = some e →
      (i = 0 → e.parent = SENTINEL) ∧
      (i ≠ 0 → e.parent < i ∧
        ∃ pe, db[e.parent]? = some pe ∧ pe.is_dir = true) := by
  intro i e he
  have hi : i < db.length := (List.getElem?_eq_some.mp he).1
  unfold DbInv dbInvB at h
  have hp0 := List.all_eq_true.mp h i (List.mem_range.mpr hi)
  rw [he] at hp0
  have hp : (if i = 0 then e.parent == SENTINEL
      else decide (e.parent < i) &&
        (match db[e.parent]? with
         | some p => p.is_dir
         | none => false)) = true := hp0
  constructor
  · intro h0
    rw [if_pos h0] at hp
    simpa using hp
  · intro h0
    rw [if_neg h0] at hp
    simp only [Bool.and_eq_true, decide_eq_true_eq] at hp
    refine ⟨hp.1, ?_⟩
    cases hpe : db[e.parent]? with
    | none => rw [hpe] at hp; exact absurd hp.2 (by simp)
    | some pe => rw [hpe] at hp; exact ⟨pe, rfl, hp.2⟩

/-- Parent pointers of an invariant store strictly descend. -/
theorem DbInv_parent_lt (db : FileDb) (h : DbInv db) :
    ∀ j e, db[j]? = some e → j ≠ 0 → e.parent < j :=
  fun j e he h0 => ((DbInv_spec db h j e he).2 h0).1

/-- Fuel stability of the depth function on stores whose parent
pointers strictly descend. -/
theorem depth_go_stable (db : FileDb)
    (hpar : ∀ j e, db[j]? = some e → j ≠ 0 → e.parent < j) :
    ∀ i f1 f2, i ≤ f1 → i ≤ f2 → depth_go db f1 i = depth_go db f2 i := by
  intro i
  induction i using Nat.strong_induction_on with
  | _ i ih =>
    intro f1 f2 h1 h2
    by_cases h0 : i = 0
    · subst h0
      cases f1 <;> cases f2 <;> simp [depth_go]
    · obtain ⟨a, rfl⟩ : ∃ a, f1 = a + 1 := ⟨f1 - 1, by omega⟩
      obtain ⟨b, rfl⟩ : ∃ b, f2 = b + 1 := ⟨f2 - 1, by omega⟩
      simp only [depth_go, if_neg h0]
      cases he : db[i]? with
      | none => rfl
      | some e =>
        have hp := hpar i e he h0
        show depth_go db a e.parent + 1 = depth_go db b e.parent + 1
        rw [ih e.parent (by omega) a b (by omega) (by omega)]

/-- Depth recurrence on descending stores: a non-root node sits one
level below its parent. -/
theorem depthD_parent (db : FileDb)
    (hpar : ∀ j e, db[j]? = some e → j ≠ 0 → e.parent < j)
    (i : Nat) (e : FileDbEntry) (he : db[i]? = some e) (h0 : i ≠ 0) :
    depthD db i = depthD db e.parent + 1 := by
  obtain ⟨m, rfl⟩ : ∃ m, i = m + 1 := ⟨i - 1, by omega⟩
  unfold depthD
  simp only [depth_go, if_neg h0, he]
  have hp := hpar _ e he h0
  rw [depth_go_stable db hpar e.parent m e.parent (by omega) (le_refl _)]

/-- The root has depth 0. -/
theorem depthD_zero (db : FileDb) : depthD db 0 = 0 := rfl

/-- The depth function reads only parent pointers. -/
theorem depth_go_congr_parents (dba dbb : FileDb)
    (hpar : ∀ j : Nat, (dba[j]?).map (fun e => e.parent) =
      (dbb[j]?).map (fun e => e.parent)) :
    ∀ fuel i, depth_go dba fuel i = depth_go dbb fuel i := by
  intro fuel
  induction fuel with
  | zero => intro i; rfl
  | succ f ih =>
    intro i
    simp only [depth_go]
    by_cases h0 : i = 0
    · simp [h0]
    · rw [if_neg h0, if_neg h0]
      have hj := hpar i
      cases h1 : dba[i]? with
      | none =>
        cases h2 : dbb[i]? with
        | none => rfl
        | some e2 => rw [h1, h2] at hj; exact absurd hj (by simp)
      | some e1 =>
        cases h2 : dbb[i]? with
        | none => rw [h1, h2] at hj; exact absurd hj (by simp)
        | some e2 =>
          rw [h1, h2] at hj
          simp only [Option.map_some', Option.some.injEq] at hj
          show depth_go dba f e1.parent + 1 = depth_go dbb f e2.parent + 1
          rw [hj, ih]

/-- Resetting directory sizes does not change structure. -/
theorem reset_dir_sizes_shape (db : FileDb) (i : Nat) :
    ((reset_dir_sizes db)[i]?).map (fun e => (e.is_dir, e.parent)) =
      (db[i]?).map (fun e => (e.is_dir, e.parent)) := by
  unfold reset_dir_sizes
  rw [List.getElem?_map]
  cases db[i]? with
  | none => rfl
  | some e => by_cases hd : e.is_dir <;> simp [hd]

/-- Resetting directory sizes does not change parent pointers. -/
theorem reset_dir_sizes_parents (db : FileDb) (i : Nat) :
    ((reset_dir_sizes db)[i]?).map (fun e => e.parent) =
      (db[i]?).map (fun e => e.parent) := by
  unfold reset_dir_sizes
  rw [List.getElem?_map]
  cases db[i]? with
  | none => rfl
  | some e => by_cases hd : e.is_dir <;> simp [hd]

/-- Resetting directory hashes does not change parent pointers. -/
theorem reset_dir_hashes_parents (db : FileDb) (i : Nat) :
    ((reset_dir_hashes db)[i]?).map (fun e => e.parent) =
      (db[i]?).map (fun e => e.parent) := by
  unfold reset_dir_hashes
  rw [List.getElem?_map]
  cases db[i]? with
  | none => rfl
  | some e => by_cases hd : e.is_dir <;> simp [hd]

/-- Resetting directory sizes does not change the length. -/
theorem reset_dir_sizes_length (db : FileDb) :
    (reset_dir_sizes db).length = db.length := by
  simp [reset_dir_sizes]

/-- Depths are unchanged by the size reset. -/
theorem depthD_reset_sizes (db : FileDb) (i : Nat) :
    depthD (reset_dir_sizes db) i = depthD db i :=
  depth_go_congr_parents _ _ (reset_dir_sizes_parents db) i i

/-- Depths are unchanged by the hash reset. -/
theorem depthD_reset_hashes (db : FileDb) (i : Nat) :
    depthD (reset_dir_hashes db) i = depthD db i :=
  depth_go_congr_parents _ _ (reset_dir_hashes_parents db) i i

/-- Concatenation form of the index schedule. -/
theorem range'_succ_concat (k : Nat) :
    List.range' 1 (k + 1) = List.range' 1 k ++ [k + 1] := by
  rw [List.range'_concat]
  congr 1
  simp [Nat.add_comm]

/-- Constructive run of foldlM when every step succeeds and preserves
an invariant. -/
theorem foldlM_except_ok_of_step {alp bet : Type}
    (f : bet → alp → Except Err bet) (P : bet → Prop) :
    ∀ (l : List alp) (b : bet), P b →
      (∀ st a, a ∈ l → P st → ∃ st', f st a = .ok st' ∧ P st') →
      ∃ b', l.foldlM f b = .ok b' ∧ P b' := by
  intro l
  induction l with
  | nil =>
    intro b hb _
    exact ⟨b, by rw [List.foldlM_nil]; rfl, hb⟩
  | cons a t ih =>
    intro b hb h
    obtain ⟨b1, hf, hP⟩ := h b a (List.mem_cons_self a t) hb
    obtain ⟨b', hfold, hP'⟩ :=
      ih b1 hP (fun st x hx hP2 => h st x (List.mem_cons_of_mem _ hx) hP2)
    exact ⟨b', by rw [List.foldlM_cons, hf, except_bind_ok, hfold], hP'⟩

/-- Characterization of a successful prefix of the forward level sweep
of propagate_sizes on a store with descending parents: processed
entries carry their depth, unprocessed entries carry the unset
sentinel, the running maximum dominates every processed depth, and all
stored levels are at most 65535. -/
theorem levels_fold_char (db : FileDb)
    (hpar : ∀ j e, db[j]? = some e → j ≠ 0 → e.parent < j)
    (hne : 0 < db.length) :
    ∀ k, k ≤ db.length - 1 → ∀ st,
      (List.range' 1 k).foldlM (levels_step db)
        ((List.replicate db.length MAX16).set 0 0, 0) = .ok st →
      st.1.length = db.length ∧
      (∀ i, i ≤ k → i < db.length → st.1[i]? = some (depthD db i)) ∧
      (∀ i, k < i → i < db.length → st.1[i]? = some MAX16) ∧
      (∀ i, 1 ≤ i → i ≤ k → i < db.length → depthD db i ≤ st.2) ∧
      (∀ i v : Nat, st.1[i]? = some v → v ≤ MAX16) ∧
      st.2 ≤ MAX16 := by
  intro k
  induction k with
  | zero =>
    intro _ st h
    rw [List.range'_zero, List.foldlM_nil] at h
    have hst : ((List.replicate db.length MAX16).set 0 0, 0) = st := by
      simpa [pure, Except.pure] using h
    rw [← hst]
    refine ⟨by simp, ?_, ?_, by omega, ?_, by norm_num [MAX16]⟩
    · intro i hi0 hilen
      have hi : i = 0 := by omega
      subst hi
      rw [List.getElem?_set_self (by simpa using hne)]
      rfl
    · intro i hi hilen
      rw [List.getElem?_set_ne (by omega), List.getElem?_replicate_of_lt (by simpa using hilen)]
    · intro i v hv
      by_cases hi : i = 0
      · subst hi
        rw [List.getElem?_set_self (by simpa using hne)] at hv
        have : v = 0 := by simpa using hv.symm
        omega
      · rw [List.getElem?_set_ne (by omega)] at hv
        rw [List.getElem?_replicate] at hv
        by_cases hlt : i < db.length
        · rw [if_pos (by simpa using hlt)] at hv
          have : v = MAX16 := by simpa using hv.symm
          omega
        · rw [if_neg (by simpa using hlt)] at hv
          exact absurd hv (by simp)
  | succ k ih =>
    intro hk st h
    rw [range'_succ_concat, List.foldlM_append] at h
    cases hpre : (List.range' 1 k).foldlM (levels_step db)
        ((List.replicate db.length MAX16).set 0 0, 0) with
    | error er => rw [hpre, except_bind_error] at h; exact absurd h (by simp)
    | ok st1 =>
      rw [hpre, except_bind_ok, List.foldlM_cons] at h
      obtain ⟨hlen1, hproc1, hun1, hmax1, hbv1, hb1⟩ := ih (by omega) st1 hpre
      cases hstep : levels_step db st1 (k + 1) with
      | error er => rw [hstep, except_bind_error] at h; exact absurd h (by simp)
      | ok st2 =>
        rw [hstep, except_bind_ok, List.foldlM_nil] at h
        have hst2 : st2 = st := by simpa [pure, Except.pure] using h
        rw [← hst2]
        unfold levels_step at hstep
        split at hstep
        · exact absurd hstep (by simp)
        · rename_i e heq
          split at hstep
          · exact absurd hstep (by simp)
          · rename_i lp heq2
            split at hstep
            · exact absurd hstep (by simp)
            · rename_i hlpne
              simp only [] at hstep
              have hst2eq : (st1.1.set (k + 1) (lp + 1),
                  if lp + 1 > st1.2 then lp + 1 else st1.2) = st2 := by
                simpa using hstep
              rw [← hst2eq]
              have hplt := hpar (k + 1) e heq (by omega)
              have hplen : e.parent < db.length := by omega
              have hlp : lp = depthD db e.parent := by
                have h5 := hproc1 e.parent (by omega) hplen
                rw [heq2] at h5
                simpa using h5
              have hdk : depthD db (k + 1) = lp + 1 := by
                rw [depthD_parent db hpar (k + 1) e heq (by omega), hlp]
              have hlpb : lp ≤ MAX16 := hbv1 e.parent lp heq2
              refine ⟨by simpa using hlen1, ?_, ?_, ?_, ?_, ?_⟩
              · intro i hik hilen
                by_cases hie : i = k + 1
                · subst hie
                  rw [List.getElem?_set_self (by omega), hdk]
                · rw [List.getElem?_set_ne (by omega)]
                  exact hproc1 i (by omega) hilen
              · intro i hik hilen
                rw [List.getElem?_set_ne (by omega)]
                exact hun1 i (by omega) hilen
              · intro i h1i hik hilen
                by_cases hie : i = k + 1
                · subst hie
                  rw [hdk]
                  by_cases hc : lp + 1 > st1.2 <;> simp [hc]
                  omega
                · have := hmax1 i h1i (by omega) hilen
                  by_cases hc : lp + 1 > st1.2 <;> (simp [hc]; omega)
              · intro i v hv
                by_cases hie : i = k + 1
                · subst hie
                  rw [List.getElem?_set_self (by omega)] at hv
                  have : lp + 1 = v := by simpa using hv
                  omega
                · rw [List.getElem?_set_ne (by omega)] at hv
                  exact hbv1 i v hv
              · by_cases hc : lp + 1 > st1.2 <;> simp [hc] <;> omega

/-- Characterization of a successful prefix of the directory level
sweep of propagate_hashes on an invariant store: processed directories
carry their depth, files and unprocessed entries keep the sentinel, and
the running maximum dominates every processed directory depth. -/
theorem dir_levels_fold_char (db : FileDb)
    (hInv : DbInv db) (hne : 0 < db.length) :
    ∀ k, k ≤ db.length - 1 → ∀ st,
      (List.range' 1 k).foldlM (dir_levels_step db)
        ((List.replicate db.length MAX16).set 0 0, 0) = .ok st →
      st.1.length = db.length ∧
      st.1[0]? = some 0 ∧
      (∀ i e, 1 ≤ i → i ≤ k → db[i]? = some e → e.is_dir = true →
        st.1[i]? = some (depthD db i)) ∧
      (∀ i e, 1 ≤ i → db[i]? = some e → (k < i ∨ e.is_dir = false) →
        st.1[i]? = some MAX16) ∧
      (∀ i e, 1 ≤ i → i ≤ k → db[i]? = some e → e.is_dir = true →
        depthD db i ≤ st.2) := by
  intro k
  induction k with
  | zero =>
    intro _ st h
    rw [List.range'_zero, List.foldlM_nil] at h
    have hst : ((List.replicate db.length MAX16).set 0 0, 0) = st := by
      simpa [pure, Except.pure] using h
    rw [← hst]
    refine ⟨by simp, ?_, by omega, ?_, by omega⟩
    · rw [List.getElem?_set_self (by simpa using hne)]
    · intro i e h1i he _
      have hilen : i < db.length := (List.getElem?_eq_some.mp he).1
      rw [List.getElem?_set_ne (by omega),
        List.getElem?_replicate_of_lt (by simpa using hilen)]
  | succ k ih =>
    intro hk st h
    rw [range'_succ_concat, List.foldlM_append] at h
    cases hpre : (List.range' 1 k).foldlM (dir_levels_step db)
        ((List.replicate db.length MAX16).set 0 0, 0) with
    | error er => rw [hpre, except_bind_error] at h; exact absurd h (by simp)
    | ok st1 =>
      rw [hpre, except_bind_ok, List.foldlM_cons] at h
      obtain ⟨hlen1, hz1, hproc1, hun1, hmax1⟩ := ih (by omega) st1 hpre
      cases hstep : dir_levels_step db st1 (k + 1) with
      | error er => rw [hstep, except_bind_error] at h; exact absurd h (by simp)
      | ok st2 =>
        rw [hstep, except_bind_ok, List.foldlM_nil] at h
        have hst2 : st2 = st := by simpa [pure, Except.pure] using h
        rw [← hst2]
        unfold dir_levels_step at hstep
        split at hstep
        · exact absurd hstep (by simp)
        · rename_i e heq
          split at hstep
          · -- directory entry at k + 1
            rename_i hdir
            split at hstep
            · exact absurd hstep (by simp)
            · rename_i lp heq2
              split at hstep
              · exact absurd hstep (by simp)
              · rename_i hlpne
                simp only [] at hstep
                split at hstep
                · exact absurd hstep (by simp)
                · rename_i hlvlt
                  have hst2eq : (st1.1.set (k + 1) (lp + 1),
                      if lp + 1 > st1.2 then lp + 1 else st1.2) = st2 := by
                    simpa using hstep
                  rw [← hst2eq]
                  have hpar := DbInv_parent_lt db hInv
                  have hsp := (DbInv_spec db hInv (k + 1) e heq).2 (by omega)
                  obtain ⟨hplt, pe, hpe, hpedir⟩ := hsp
                  have hlp : lp = depthD db e.parent := by
                    by_cases hp0 : e.parent = 0
                    · rw [hp0] at heq2
                      rw [hz1] at heq2
                      have : (0 : Nat) = lp := by simpa using heq2
                      rw [← this, hp0, depthD_zero]
                    · have h5 := hproc1 e.parent pe (by omega) (by omega) hpe hpedir
                      rw [heq2] at h5
                      simpa using h5
                  have hdk : depthD db (k + 1) = lp + 1 := by
                    rw [depthD_parent db hpar (k + 1) e heq (by omega), hlp]
                  refine ⟨by simpa using hlen1, ?_, ?_, ?_, ?_⟩
                  · rw [List.getElem?_set_ne (by omega)]
                    exact hz1
                  · intro i e2 h1i hik he2 hd2
                    by_cases hie : i = k + 1
                    · subst hie
                      rw [List.getElem?_set_self (by omega), hdk]
                    · rw [List.getElem?_set_ne (by omega)]
                      exact hproc1 i e2 h1i (by omega) he2 hd2
                  · intro i e2 h1i he2 hor
                    have hik : k < i ∨ e2.is_dir = false := by
                      rcases hor with h1 | h2
                      · exact Or.inl (by omega)
                      · exact Or.inr h2
                    have hie : i ≠ k + 1 := by
                      intro hc
                      subst hc
                      rw [heq] at he2
                      have : e = e2 := by simpa using he2
                      rcases hor with h1 | h2
                      · omega
                      · rw [← this] at h2; rw [hdir] at h2; simp at h2
                    rw [List.getElem?_set_ne (by omega)]
                    exact hun1 i e2 h1i he2 hik
                  · intro i e2 h1i hik he2 hd2
                    by_cases hie : i = k + 1
                    · subst hie
                      rw [hdk]
                      by_cases hc : lp + 1 > st1.2 <;> simp [hc]
                      omega
                    · have := hmax1 i e2 h1i (by omega) he2 hd2
                      by_cases hc : lp + 1 > st1.2 <;> (simp [hc]; omega)
          · -- non-directory entry at k + 1: state unchanged
            rename_i hdir
            have hst1eq : st1 = st2 := by simpa using hstep
            rw [← hst1eq]
            rename_i heq
            refine ⟨hlen1, hz1, ?_, ?_, ?_⟩
            · intro i e2 h1i hik he2 hd2
              by_cases hie : i = k + 1
              · subst hie
                rw [heq] at he2
                have : e = e2 := by simpa using he2
                rw [← this] at hd2
                exact absurd hd2 (by simpa using hdir)
              · exact hproc1 i e2 h1i (by omega) he2 hd2
            · intro i e2 h1i he2 hor
              by_cases hie : i = k + 1
              · subst hie
                have he' : e = e2 := by
                  rw [heq] at he2
                  simpa using he2
                refine hun1 (k + 1) e2 h1i he2 (Or.inr ?_)
                rw [← he']
                simpa using hdir
              · rcases hor with h1 | h2
                · exact hun1 i e2 h1i he2 (Or.inl (by omega))
                · exact hun1 i e2 h1i he2 (Or.inr h2)
            · intro i e2 h1i hik he2 hd2
              by_cases hie : i = k + 1
              · subst hie
                rw [heq] at he2
                have : e = e2 := by simpa using he2
                rw [← this] at hd2
                exact absurd hd2 (by simpa using hdir)
              · exact hmax1 i e2 h1i (by omega) he2 hd2

/-- The forest invariant reads only the is_dir and parent columns. -/
theorem dbInvB_congr_shape (dba dbb : FileDb)
    (hlen : dba.length = dbb.length)
    (hsh : ∀ i : Nat, (dba[i]?).map (fun e => (e.is_dir, e.parent)) =
      (dbb[i]?).map (fun e => (e.is_dir, e.parent))) :
    dbInvB dba = dbInvB dbb := by
  unfold dbInvB
  rw [hlen]
  congr 1
  funext i
  have hi := hsh i
  cases ha : dba[i]? with
  | none =>
    cases hb : dbb[i]? with
    | none => rfl
    | some eb => rw [ha, hb] at hi; exact absurd hi (by simp)
  | some ea =>
    cases hb : dbb[i]? with
    | none => rw [ha, hb] at hi; exact absurd hi (by simp)
    | some eb =>
      rw [ha, hb] at hi
      simp only [Option.map_some', Option.some.injEq, Prod.mk.injEq] at hi
      show (if i = 0 then ea.parent == SENTINEL
          else decide (ea.parent < i) &&
            (match dba[ea.parent]? with
             | some p => p.is_dir
             | none => false)) =
        (if i = 0 then eb.parent == SENTINEL
          else decide (eb.parent < i) &&
            (match dbb[eb.parent]? with
             | some p => p.is_dir
             | none => false))
      rw [hi.2]
      by_cases h0 : i = 0
      · rw [if_pos h0, if_pos h0]
      · rw [if_neg h0, if_neg h0]
        have hp := hsh eb.parent
        cases hpa : dba[eb.parent]? with
        | none =>
          cases hpb : dbb[eb.parent]? with
          | none => rfl
          | some pb => rw [hpa, hpb] at hp; exact absurd hp (by simp)
        | some pa =>
          cases hpb : dbb[eb.parent]? with
          | none => rw [hpa, hpb] at hp; exact absurd hp (by simp)
          | some pb =>
            rw [hpa, hpb] at hp
            simp only [Option.map_some', Option.some.injEq,
              Prod.mk.injEq] at hp
            show (decide (eb.parent < i) && pa.is_dir) =
              (decide (eb.parent < i) && pb.is_dir)
            rw [hp.1]

/-- The hash reset preserves the forest invariants. -/
theorem dbInv_reset_dir_hashes (db : FileDb) (h : DbInv db) :
    DbInv (reset_dir_hashes db) := by
  unfold DbInv
  rw [dbInvB_congr_shape (reset_dir_hashes db) db
    (reset_dir_hashes_length db) (reset_dir_hashes_shape db)]
  exact h

/-- If propagate_hashes succeeds on an invariant store, every directory
of the store sits at depth at most 65533, because the directory level
sweep assigns each directory its depth and the pass asserts
max_level < u16::MAX - 1. -/
theorem propagate_hashes_ok_dir_depth_le (db db' : FileDb)
    (hInv : DbInv db) (h : propagate_hashes db = .ok db') :
    ∀ i e, db[i]? = some e → e.is_dir = true →
      depthD db i ≤ MAX16 - 2 := by
  unfold propagate_hashes at h
  simp only [] at h
  cases hcdl : compute_dir_levels (reset_dir_hashes db) with
  | error er =>
    rw [hcdl, except_bind_error] at h
    exact absurd h (by simp)
  | ok p =>
    obtain ⟨levels, maxL⟩ := p
    rw [hcdl, except_bind_ok] at h
    have h2 : (if maxL < MAX16 - 1 then
        (do
          let hs ← (rev_levels maxL).foldlM
            (hash_level_pass (reset_dir_hashes db) levels)
            ((reset_dir_hashes db).map (fun e => e.hash))
          if (hs.drop 1).all (fun hh => hh != EMPTY_HASH) then
            pure (zip_hashes (reset_dir_hashes db) hs)
          else Except.error Err.assertFailed : Except Err FileDb)
      else Except.error Err.assertFailed) = Except.ok db' := h
    clear h
    split at h2
    · rename_i hm
      unfold compute_dir_levels at hcdl
      split at hcdl
      · exact absurd hcdl (by simp)
      · rename_i hlen0
        have hInv0 := dbInv_reset_dir_hashes db hInv
        obtain ⟨_, _, _, _, hmax⟩ :=
          dir_levels_fold_char (reset_dir_hashes db) hInv0 (by omega)
            ((reset_dir_hashes db).length - 1) (le_refl _)
            (levels, maxL) hcdl
        intro i e he hdir
        by_cases h0 : i = 0
        · subst h0
          rw [depthD_zero]
          exact Nat.zero_le _
        · have hlen : i < db.length := (List.getElem?_eq_some.mp he).1
          have he0 : (reset_dir_hashes db)[i]? =
              some { e with hash := EMPTY_HASH } := by
            unfold reset_dir_hashes
            rw [List.getElem?_map, he]
            simp [hdir]
          have hb := hmax i { e with hash := EMPTY_HASH } (by omega)
            (by rw [reset_dir_hashes_length]; omega) he0 hdir
          rw [depthD_reset_hashes] at hb
          simp only [] at hb
          omega
    · exact absurd h2 (by simp)

/-- On a descending store whose depths all stay at most 65534, every
prefix of the forward level sweep succeeds and keeps the running
maximum at most 65534. -/
theorem levels_fold_ok (db : FileDb)
    (hpar : ∀ j e, db[j]? = some e → j ≠ 0 → e.parent < j)
    (hne : 0 < db.length)
    (hdep : ∀ i, i < db.length → depthD db i ≤ MAX16 - 1) :
    ∀ k, k ≤ db.length - 1 →
      ∃ st, (List.range' 1 k).foldlM (levels_step db)
        ((List.replicate db.length MAX16).set 0 0, 0) = .ok st ∧
        st.2 ≤ MAX16 - 1 := by
  intro k
  induction k with
  | zero =>
    intro _
    refine ⟨((List.replicate db.length MAX16).set 0 0, 0), ?_, ?_⟩
    · rw [List.range'_zero, List.foldlM_nil]
      rfl
    · exact Nat.zero_le _
  | succ k ih =>
    intro hk
    obtain ⟨st, hst, hb⟩ := ih (by omega)
    obtain ⟨hlen, hproc, _, _, _, _⟩ :=
      levels_fold_char db hpar hne k (by omega) st hst
    have hklen : k + 1 < db.length := by omega
    obtain ⟨e, he⟩ : ∃ e, db[k + 1]? = some e := by
      rw [List.getElem?_eq_getElem hklen]
      exact ⟨_, rfl⟩
    have hp := hpar (k + 1) e he (by omega)
    have hplev : st.1[e.parent]? = some (depthD db e.parent) :=
      hproc e.parent (by omega) (by omega)
    have hdp : depthD db (k + 1) = depthD db e.parent + 1 :=
      depthD_parent db hpar (k + 1) e he (by omega)
    have hdpb : depthD db (k + 1) ≤ MAX16 - 1 := hdep (k + 1) hklen
    have hnm : ¬ depthD db e.parent = MAX16 := by
      have hm : 0 < MAX16 := by norm_num [MAX16]
      omega
    refine ⟨(st.1.set (k + 1) (depthD db e.parent + 1),
      if depthD db e.parent + 1 > st.2 then depthD db e.parent + 1
      else st.2), ?_, ?_⟩
    · rw [range'_succ_concat, List.foldlM_append, hst, except_bind_ok,
        List.foldlM_cons]
      have hstep : levels_step db st (k + 1) =
          .ok (st.1.set (k + 1) (depthD db e.parent + 1),
            if depthD db e.parent + 1 > st.2 then depthD db e.parent + 1
            else st.2) := by
        simp only [levels_step, he, hplev, if_neg hnm]
      rw [hstep, except_bind_ok, List.foldlM_nil]
      rfl
    · by_cases hc : depthD db e.parent + 1 > st.2
      · rw [if_pos hc]; omega
      · rw [if_neg hc]; omega

/-- compute_levels succeeds on a descending nonempty store whose depths
stay at most 65534, computes exactly the depth of every node, and
returns a maximum level at most 65534. -/
theorem compute_levels_ok_of_depth_bound (db : FileDb)
    (hpar : ∀ j e, db[j]? = some e → j ≠ 0 → e.parent < j)
    (hne : 0 < db.length)
    (hdep : ∀ i, i < db.length → depthD db i ≤ MAX16 - 1) :
    ∃ lv, compute_levels db = .ok lv ∧
      lv.1.length = db.length ∧
      (∀ i, i < db.length → lv.1[i]? = some (depthD db i)) ∧
      lv.2 ≤ MAX16 - 1 := by
  obtain ⟨st, hst, hb⟩ :=
    levels_fold_ok db hpar hne hdep (db.length - 1) (le_refl _)
  obtain ⟨hlen, hproc, _, _, _, _⟩ :=
    levels_fold_char db hpar hne (db.length - 1) (le_refl _) st hst
  refine ⟨st, ?_, hlen, ?_, hb⟩
  · unfold compute_levels
    rw [if_neg (by omega), hst]
  · intro i hi
    exact hproc i (by omega) hi

/-- One step of the bottom-up size pass succeeds and preserves lengths
and parent pointers whenever the levels column has the store's length,
level 0 is only held by the root, and parents descend. -/
theorem size_accum_step_ok (levels : List Nat) (db0 : FileDb) (d : Nat)
    (hd : 1 ≤ d)
    (hlev0 : levels[0]? = some 0)
    (hlevlen : levels.length = db0.length)
    (hpar : ∀ j e, db0[j]? = some e → j ≠ 0 → e.parent < j)
    (acc : FileDb) (i : Nat) (hi : i < levels.length)
    (hPl : acc.length = db0.length)
    (hPp : ∀ j : Nat, (acc[j]?).map (fun e => e.parent) =
      (db0[j]?).map (fun e => e.parent)) :
    ∃ acc', size_accum_step levels d acc i = .ok acc' ∧
      acc'.length = db0.length ∧
      (∀ j : Nat, (acc'[j]?).map (fun e => e.parent) =
        (db0[j]?).map (fun e => e.parent)) := by
  obtain ⟨li, hli⟩ : ∃ li, levels[i]? = some li :=
    ⟨levels[i], List.getElem?_eq_getElem hi⟩
  by_cases hc : li = d
  · have hi0 : i ≠ 0 := by
      intro h0
      subst h0
      rw [hlev0] at hli
      have : (0 : Nat) = li := by simpa using hli
      omega
    have hiacc : i < acc.length := by omega
    obtain ⟨e, he⟩ : ∃ e, acc[i]? = some e :=
      ⟨acc[i], List.getElem?_eq_getElem hiacc⟩
    obtain ⟨e0, he0⟩ : ∃ e0, db0[i]? = some e0 :=
      ⟨db0[i], List.getElem?_eq_getElem (by omega)⟩
    have hpe : e.parent = e0.parent := by
      have := hPp i
      rw [he, he0] at this
      simpa using this
    have hplt : e.parent < i := by
      rw [hpe]
      exact hpar i e0 he0 hi0
    obtain ⟨p, hp⟩ : ∃ p, acc[e.parent]? = some p :=
      ⟨acc[e.parent], List.getElem?_eq_getElem (by omega)⟩
    refine ⟨acc.set e.parent { p with size := (p.size + e.size) % 2 ^ 64 },
      ?_, ?_, ?_⟩
    · simp only [size_accum_step, hli, if_pos hc, he, hp]
    · rw [List.length_set]
      exact hPl
    · intro j
      by_cases hj : j = e.parent
      · subst hj
        rw [List.getElem?_set_self (by omega)]
        have := hPp e.parent
        rw [hp] at this
        simpa using this
      · rw [List.getElem?_set_ne (by omega)]
        exact hPp j
  · refine ⟨acc, ?_, hPl, hPp⟩
    simp only [size_accum_step, hli, if_neg hc]

/-- One full level of the bottom-up size pass succeeds and preserves
lengths and parent pointers. -/
theorem size_level_pass_ok (levels : List Nat) (db0 : FileDb) (d : Nat)
    (hd : 1 ≤ d)
    (hlev0 : levels[0]? = some 0)
    (hlevlen : levels.length = db0.length)
    (hpar : ∀ j e, db0[j]? = some e → j ≠ 0 → e.parent < j)
    (acc : FileDb)
    (hPl : acc.length = db0.length)
    (hPp : ∀ j : Nat, (acc[j]?).map (fun e => e.parent) =
      (db0[j]?).map (fun e => e.parent)) :
    ∃ acc', size_level_pass levels acc d = .ok acc' ∧
      acc'.length = db0.length ∧
      (∀ j : Nat, (acc'[j]?).map (fun e => e.parent) =
        (db0[j]?).map (fun e => e.parent)) := by
  unfold size_level_pass
  obtain ⟨b', hb', hP'⟩ := foldlM_except_ok_of_step
    (fun acc i => size_accum_step levels d acc i)
    (fun acc => acc.length = db0.length ∧
      ∀ j : Nat, (acc[j]?).map (fun e => e.parent) =
        (db0[j]?).map (fun e => e.parent))
    (List.range levels.length) acc ⟨hPl, hPp⟩
    (fun st a ha hP => by
      obtain ⟨a', ha', hl', hp'⟩ := size_accum_step_ok levels db0 d hd
        hlev0 hlevlen hpar st a (List.mem_range.mp ha) hP.1 hP.2
      exact ⟨a', ha', hl', hp'⟩)
  exact ⟨b', hb', hP'.1, hP'.2⟩

/-- propagate_sizes succeeds on every invariant nonempty store whose
maximum node depth is at most 65534. -/
theorem propagate_sizes_ok_of_depth_bound (db : FileDb) (hInv : DbInv db)
    (hne : 0 < db.length)
    (hdep : ∀ i, i < db.length → depthD db i ≤ MAX16 - 1) :
    ∃ db', propagate_sizes db = .ok db' := by
  have hpar0 : ∀ j e, (reset_dir_sizes db)[j]? = some e → j ≠ 0 →
      e.parent < j := by
    intro j e he hj
    have hsh := reset_dir_sizes_parents db j
    rw [he] at hsh
    cases hdb : db[j]? with
    | none => rw [hdb] at hsh; exact absurd hsh (by simp)
    | some e1 =>
      rw [hdb] at hsh
      have : e.parent = e1.parent := by simpa using hsh
      rw [this]
      exact DbInv_parent_lt db hInv j e1 hdb hj
  have hne0 : 0 < (reset_dir_sizes db).length := by
    rw [reset_dir_sizes_length]; exact hne
  have hdep0 : ∀ i, i < (reset_dir_sizes db).length →
      depthD (reset_dir_sizes db) i ≤ MAX16 - 1 := by
    intro i hi
    rw [depthD_reset_sizes]
    exact hdep i (by rw [reset_dir_sizes_length] at hi; exact hi)
  obtain ⟨lv, hcl, hlvlen, hlvval, hlvmax⟩ :=
    compute_levels_ok_of_depth_bound (reset_dir_sizes db) hpar0 hne0 hdep0
  have hm : 0 < MAX16 := by norm_num [MAX16]
  have hlev0 : lv.1[0]? = some 0 := by
    have := hlvval 0 hne0
    rw [depthD_zero] at this
    exact this
  obtain ⟨db', hdb', _, _⟩ := foldlM_except_ok_of_step
    (size_level_pass lv.1)
    (fun acc => acc.length = (reset_dir_sizes db).length ∧
      ∀ j : Nat, (acc[j]?).map (fun e => e.parent) =
        ((reset_dir_sizes db)[j]?).map (fun e => e.parent))
    (rev_levels lv.2) (reset_dir_sizes db) ⟨rfl, fun j => rfl⟩
    (fun st a ha hP => by
      have had : 1 ≤ a := by
        unfold rev_levels at ha
        have := (List.mem_range'_1.mp (List.mem_reverse.mp ha)).1
        omega
      obtain ⟨a', ha', hl', hp'⟩ := size_level_pass_ok lv.1
        (reset_dir_sizes db) a had hlev0 hlvlen hpar0 st hP.1 hP.2
      exact ⟨a', ha', hl', hp'⟩)
  refine ⟨db', ?_⟩
  unfold propagate_sizes
  simp only [] at hdb' ⊢
  rw [hcl, except_bind_ok, if_neg (by omega)]
  exact hdb'

/-- propagate_sizes fails on every invariant store holding a node at
depth 65535 or more: the forward sweep's maximum level would reach
u16::MAX, which either trips the unset-level assert in a child or
overflows the u16 loop bound max_level + 1. -/
theorem propagate_sizes_fail_of_deep (db : FileDb) (hInv : DbInv db)
    (i : Nat) (hi : i < db.length) (hdeep : MAX16 ≤ depthD db i) :
    exceptIsOk (propagate_sizes db) = false := by
  cases hps : propagate_sizes db with
  | error er => rfl
  | ok db' =>
    exfalso
    have hpar0 : ∀ j e, (reset_dir_sizes db)[j]? = some e → j ≠ 0 →
        e.parent < j := by
      intro j e he hj
      have hsh := reset_dir_sizes_parents db j
      rw [he] at hsh
      cases hdb : db[j]? with
      | none => rw [hdb] at hsh; exact absurd hsh (by simp)
      | some e1 =>
        rw [hdb] at hsh
        have : e.parent = e1.parent := by simpa using hsh
        rw [this]
        exact DbInv_parent_lt db hInv j e1 hdb hj
    have hm : 0 < MAX16 := by norm_num [MAX16]
    have hi0 : i ≠ 0 := by
      intro h0
      subst h0
      rw [depthD_zero] at hdeep
      omega
    unfold propagate_sizes at hps
    simp only [] at hps
    cases hcl : compute_levels (reset_dir_sizes db) with
    | error er => rw [hcl, except_bind_error] at hps; exact absurd hps (by simp)
    | ok lv =>
      rw [hcl, except_bind_ok] at hps
      unfold compute_levels at hcl
      split at hcl
      · exact absurd hcl (by simp)
      · rename_i hlen0
        obtain ⟨_, _, _, hdom, _, hb16⟩ :=
          levels_fold_char (reset_dir_sizes db) hpar0 (by omega)
            ((reset_dir_sizes db).length - 1) (le_refl _) lv hcl
        have hdd : depthD (reset_dir_sizes db) i ≤ lv.2 := by
          refine hdom i (by omega) ?_ ?_
          · rw [reset_dir_sizes_length]; omega
          · rw [reset_dir_sizes_length]; omega
        rw [depthD_reset_sizes] at hdd
        split at hps
        · exact absurd hps (by simp)
        · rename_i hmx
          omega

/-- Length of the chain store. -/
theorem chainDb_length (n : Nat) : (chainDb n).length = n := by
  simp [chainDb]

/-- Records of the chain store. -/
theorem chainDb_getElem (n i : Nat) (hi : i < n) :
    (chainDb n)[i]? = some (mkChainEntry i) := by
  unfold chainDb
  rw [List.getElem?_map, List.getElem?_range hi]
  rfl

/-- The chain store satisfies the forest invariants. -/
theorem dbInv_chain (n : Nat) : DbInv (chainDb n) := by
  unfold DbInv dbInvB
  rw [List.all_eq_true]
  intro i hi
  have hilt : i < n := by
    have := List.mem_range.mp hi
    rw [chainDb_length] at this
    exact this
  rw [chainDb_getElem n i hilt]
  show (if i = 0 then (mkChainEntry i).parent == SENTINEL
    else decide ((mkChainEntry i).parent < i) &&
      (match (chainDb n)[(mkChainEntry i).parent]? with
       | some p => p.is_dir
       | none => false)) = true
  by_cases h0 : i = 0
  · subst h0
    rfl
  · rw [if_neg h0]
    have hpar : (mkChainEntry i).parent = i - 1 := by
      unfold mkChainEntry
      simp [h0]
    rw [hpar, chainDb_getElem n (i - 1) (by omega)]
    show (decide (i - 1 < i) && (mkChainEntry (i - 1)).is_dir) = true
    simp only [mkChainEntry, Bool.and_eq_true, decide_eq_true_eq]
    exact ⟨by omega, trivial⟩

/-- Node i of the chain store sits at depth i. -/
theorem depthD_chain (n : Nat) : ∀ i, i < n → depthD (chainDb n) i = i := by
  have hpar := DbInv_parent_lt (chainDb n) (dbInv_chain n)
  intro i
  induction i with
  | zero => intro _; exact depthD_zero _
  | succ m ih =>
    intro hm
    have he := chainDb_getElem n (m + 1) hm
    rw [depthD_parent (chainDb n) hpar (m + 1) (mkChainEntry (m + 1))
      he (by omega)]
    have hp : (mkChainEntry (m + 1)).parent = m := by
      unfold mkChainEntry
      simp
    rw [hp, ih (by omega)]

/-- The claim's depth limit is not sufficient for propagate_hashes: a
chain of 65535 directories satisfies the forest invariants and every
node depth stays at 65534 or below, yet propagate_hashes fails, because
it asserts that the maximum directory level is strictly below
u16::MAX - 1 = 65534. -/
theorem propagate_hashes_depth_limit_counterexample :
    DbInv (chainDb 65535) ∧
    (∀ i, i < (chainDb 65535).length →
      depthD (chainDb 65535) i ≤ MAX16 - 1) ∧
    exceptIsOk (propagate_hashes (chainDb 65535)) = false := by
  have hM : MAX16 = 65535 := rfl
  refine ⟨dbInv_chain 65535, ?_, ?_⟩
  · intro i hi
    rw [chainDb_length] at hi
    rw [depthD_chain 65535 i hi]
    omega
  · cases hph : propagate_hashes (chainDb 65535) with
    | error er => rfl
    | ok db' =>
      exfalso
      have hdd := propagate_hashes_ok_dir_depth_le (chainDb 65535) db'
        (dbInv_chain 65535) hph 65534 (mkChainEntry 65534)
        (chainDb_getElem 65535 65534 (by omega)) rfl
      rw [depthD_chain 65535 65534 (by omega)] at hdd
      omega

/-- The size reset preserves strict descent of parent pointers. -/
theorem reset_dir_sizes_parent_lt (db : FileDb) (hInv : DbInv db) :
    ∀ j e, (reset_dir_sizes db)[j]? = some e → j ≠ 0 → e.parent < j := by
  intro j e he hj
  have hsh := reset_dir_sizes_parents db j
  rw [he] at hsh
  cases hdb : db[j]? with
  | none => rw [hdb] at hsh; exact absurd hsh (by simp)
  | some e1 =>
    rw [hdb] at hsh
    have : e.parent = e1.parent := by simpa using hsh
    rw [this]
    exact DbInv_parent_lt db hInv j e1 hdb hj

/-- C9: the level passes carry per-node depths in 16-bit values. On an
invariant nonempty store: (1) when every node depth is at most 65534,
propagate_sizes completes, and its forward sweep assigns level 0 to the
root and level(parent) + 1 — the node's depth — to every other node;
(2) a node at depth 65535 or more makes propagate_sizes fail; but (3)
the bound below 65535 is not the right one for propagate_hashes, which
already requires every directory to sit at depth at most 65533. -/
theorem level_pass_depth_limits (db : FileDb) (hInv : DbInv db)
    (hne : 0 < db.length) :
    ((∀ i, i < db.length → depthD db i ≤ MAX16 - 1) →
      (∃ db', propagate_sizes db = .ok db') ∧
      ∃ lv, compute_levels (reset_dir_sizes db) = .ok lv ∧
        lv.1[0]? = some 0 ∧
        (∀ i, i < db.length → lv.1[i]? = some (depthD db i)) ∧
        (∀ i e, db[i]? = some e → i ≠ 0 →
          depthD db i = depthD db e.parent + 1)) ∧
    ((∃ i, i < db.length ∧ MAX16 ≤ depthD db i) →
      exceptIsOk (propagate_sizes db) = false) ∧
    (∀ db', propagate_hashes db = .ok db' →
      ∀ i e, db[i]? = some e → e.is_dir = true →
        depthD db i ≤ MAX16 - 2) := by
  refine ⟨?_, ?_, ?_⟩
  · intro hdep
    refine ⟨propagate_sizes_ok_of_depth_bound db hInv hne hdep, ?_⟩
    have hne0 : 0 < (reset_dir_sizes db).length := by
      rw [reset_dir_sizes_length]; exact hne
    have hdep0 : ∀ i, i < (reset_dir_sizes db).length →
        depthD (reset_dir_sizes db) i ≤ MAX16 - 1 := by
      intro i hi
      rw [depthD_reset_sizes]
      exact hdep i (by rw [reset_dir_sizes_length] at hi; exact hi)
    obtain ⟨lv, hcl, hlvlen, hlvval, hlvmax⟩ :=
      compute_levels_ok_of_depth_bound (reset_dir_sizes db)
        (reset_dir_sizes_parent_lt db hInv) hne0 hdep0
    refine ⟨lv, hcl, ?_, ?_, ?_⟩
    · have h0 := hlvval 0 hne0
      rw [depthD_zero] at h0
      exact h0
    · intro i hi
      have hv := hlvval i (by rw [reset_dir_sizes_length]; exact hi)
      rw [depthD_reset_sizes] at hv
      exact hv
    · intro i e he h0
      exact depthD_parent db (DbInv_parent_lt db hInv) i e he h0
  · intro hex
    obtain ⟨i, hi, hdeep⟩ := hex
    exact propagate_sizes_fail_of_deep db hInv i hi hdeep
  · intro db' h
    exact propagate_hashes_ok_dir_depth_le db db' hInv h

/-- Witness for C9 at a three-directory chain. -/
theorem level_pass_depth_limits_witness :
    DbInv (chainDb 3) ∧ 0 < (chainDb 3).length ∧
    (((∀ i, i < (chainDb 3).length →
        depthD (chainDb 3) i ≤ MAX16 - 1) →
      (∃ db', propagate_sizes (chainDb 3) = .ok db') ∧
      ∃ lv, compute_levels (reset_dir_sizes (chainDb 3)) = .ok lv ∧
        lv.1[0]? = some 0 ∧
        (∀ i, i < (chainDb 3).length →
          lv.1[i]? = some (depthD (chainDb 3) i)) ∧
        (∀ i e, (chainDb 3)[i]? = some e → i ≠ 0 →
          depthD (chainDb 3) i = depthD (chainDb 3) e.parent + 1)) ∧
    ((∃ i, i < (chainDb 3).length ∧ MAX16 ≤ depthD (chainDb 3) i) →
      exceptIsOk (propagate_sizes (chainDb 3)) = false) ∧
    (∀ db', propagate_hashes (chainDb 3) = .ok db' →
      ∀ i e, (chainDb 3)[i]? = some e → e.is_dir = true →
        depthD (chainDb 3) i ≤ MAX16 - 2)) :=
  ⟨by decide, by decide,
    level_pass_depth_limits (chainDb 3) (by decide) (by decide)⟩

/-- A successful Path Index lookup is a binding of the list. -/
theorem pti_lookup_some_mem (m : PathIdx) (k : List Name) (v : Nat)
    (h : pti_lookup m k = some v) : (k, v) ∈ m := by
  induction m with
  | nil => exact absurd h (by simp [pti_lookup])
  | cons kv rest ih =>
    obtain ⟨k', v'⟩ := kv
    unfold pti_lookup at h
    split at h
    · rename_i he
      have : v' = v := by simpa using h
      subst this
      subst he
      exact List.mem_cons_self _ _
    · exact List.mem_cons_of_mem _ (ih h)

/-- Bindings after an insert: the new one or an old one. -/
theorem mem_pti_insert (m : PathIdx) (k : List Name) (v : Nat)
    (x : List Name × Nat) (h : x ∈ pti_insert m k v) :
    x = (k, v) ∨ x ∈ m := by
  induction m with
  | nil =>
    unfold pti_insert at h
    exact Or.inl (by simpa using h)
  | cons kv rest ih =>
    obtain ⟨k', v'⟩ := kv
    unfold pti_insert at h
    split at h
    · rcases List.mem_cons.mp h with h1 | h1
      · exact Or.inl h1
      · exact Or.inr (List.mem_cons_of_mem _ h1)
    · rcases List.mem_cons.mp h with h1 | h1
      · exact Or.inr (by rw [h1]; exact List.mem_cons_self _ _)
      · rcases ih h1 with h2 | h2
        · exact Or.inl h2
        · exact Or.inr (List.mem_cons_of_mem _ h2)

/-- A sound Path Index resolves only to directories of the store. -/
theorem PtiOk_lookup (pti : PathIdx) (db : FileDb) (hp : PtiOk pti db)
    (k : List Name) (v : Nat) (h : pti_lookup pti k = some v) :
    ∃ e, db[v]? = some e ∧ e.is_dir = true := by
  have hm := pti_lookup_some_mem pti k v h
  unfold PtiOk ptiOkB at hp
  have := List.all_eq_true.mp hp (k, v) hm
  cases hdb : db[v]? with
  | none => rw [hdb] at this; exact absurd this (by simp)
  | some e =>
    rw [hdb] at this
    exact ⟨e, rfl, this⟩

/-- Inserting a binding to a directory keeps the Path Index sound. -/
theorem PtiOk_insert (pti : PathIdx) (db : FileDb) (hp : PtiOk pti db)
    (k : List Name) (v : Nat) (e : FileDbEntry)
    (he : db[v]? = some e) (hd : e.is_dir = true) :
    PtiOk (pti_insert pti k v) db := by
  unfold PtiOk ptiOkB at hp ⊢
  rw [List.all_eq_true] at hp ⊢
  intro kv hm
  rcases mem_pti_insert pti k v kv hm with h1 | h1
  · subst h1
    show (match db[v]? with
      | some e => e.is_dir
      | none => false) = true
    rw [he]
    exact hd
  · exact hp kv h1

/-- Appending nodes to the store keeps the Path Index sound. -/
theorem PtiOk_append (pti : PathIdx) (db l : FileDb)
    (hp : PtiOk pti db) : PtiOk pti (db ++ l) := by
  unfold PtiOk ptiOkB at hp ⊢
  rw [List.all_eq_true] at hp ⊢
  intro kv hm
  have h1 := hp kv hm
  cases hdb : db[kv.2]? with
  | none => rw [hdb] at h1; exact absurd h1 (by simp)
  | some e =>
    rw [hdb] at h1
    have hlt : kv.2 < db.length := (List.getElem?_eq_some.mp hdb).1
    show (match (db ++ l)[kv.2]? with
      | some e => e.is_dir
      | none => false) = true
    rw [List.getElem?_append_left hlt, hdb]
    exact h1

/-- An ok result of append is the pushed store and the old length. -/
theorem add_file_db_entry_ok (db : FileDb) (e : FileDbEntry)
    (p : FileDb × Nat) (h : add_file_db_entry db e = .ok p) :
    p = (db ++ [e], db.length) := by
  unfold add_file_db_entry at h
  split at h
  · injection h with h2
    exact h2.symm
  · exact absurd h (by simp)

/-- Converse of the forest-invariant characterization. -/
theorem dbInv_of_spec (db : FileDb)
    (h : ∀ i e, db[i]? = some e →
      (i = 0 → e.parent = SENTINEL) ∧
      (i ≠ 0 → e.parent < i ∧
        ∃ pe, db[e.parent]? = some pe ∧ pe.is_dir = true)) :
    DbInv db := by
  unfold DbInv dbInvB
  rw [List.all_eq_true]
  intro i hi
  have hilt : i < db.length := List.mem_range.mp hi
  obtain ⟨e, he⟩ : ∃ e, db[i]? = some e :=
    ⟨db[i], List.getElem?_eq_getElem hilt⟩
  rw [he]
  show (if i = 0 then e.parent == SENTINEL
    else decide (e.parent < i) &&
      (match db[e.parent]? with
       | some p => p.is_dir
       | none => false)) = true
  by_cases h0 : i = 0
  · rw [if_pos h0]
    have := (h i e he).1 h0
    simp [this]
  · rw [if_neg h0]
    obtain ⟨hlt, pe, hpe, hdir⟩ := (h i e he).2 h0
    rw [hpe]
    show (decide (e.parent < i) && pe.is_dir) = true
    simp [hlt, hdir]

/-- Appending a node whose parent is a directory of the store — or the
SENTINEL when the store is still empty — preserves the forest
invariants. -/
theorem dbInv_append (db : FileDb) (e : FileDbEntry) (hInv : DbInv db)
    (hpar : (db = [] ∧ e.parent = SENTINEL) ∨
      (∃ p, db[e.parent]? = some p ∧ p.is_dir = true)) :
    DbInv (db ++ [e]) := by
  have hspec := DbInv_spec db hInv
  refine dbInv_of_spec (db ++ [e]) ?_
  intro i e1 he1
  have hilt : i < db.length + 1 := by
    have := (List.getElem?_eq_some.mp he1).1
    simpa using this
  by_cases hi : i < db.length
  · rw [List.getElem?_append_left hi] at he1
    have hs := hspec i e1 he1
    constructor
    · exact hs.1
    · intro h0
      obtain ⟨hlt, pe, hpe, hdir⟩ := hs.2 h0
      refine ⟨hlt, pe, ?_, hdir⟩
      rw [List.getElem?_append_left (by omega)]
      exact hpe
  · have hieq : i = db.length := by omega
    subst hieq
    have he1e : e1 = e := by
      rw [List.getElem?_append_right (le_refl _)] at he1
      exact (by simpa using he1 : e = e1).symm
    subst he1e
    rcases hpar with ⟨hemp, hs⟩ | ⟨p, hp, hdir⟩
    · subst hemp
      exact ⟨fun _ => hs, fun h0 => absurd rfl h0⟩
    · have hplt : e1.parent < db.length := (List.getElem?_eq_some.mp hp).1
      constructor
      · intro h0
        rw [List.length_eq_zero.mp h0] at hp
        exact absurd hp (by simp)
      · intro _
        refine ⟨hplt, p, ?_, hdir⟩
        rw [List.getElem?_append_left hplt]
        exact hp

/-- When the upward scan reports success, the prefix it stops at is
bound in the Path Index. -/
theorem arpc_walk_found (pti : PathIdx) :
    ∀ n p acc, p.length ≤ n →
      ∀ q bcc, arpc_walk pti p acc = (q, bcc, true) →
      ∃ v, pti_lookup pti q = some v := by
  intro n
  induction n with
  | zero =>
    intro p acc hn q bcc h
    rw [arpc_walk] at h
    cases hl : pti_lookup pti p with
    | some v =>
      rw [hl] at h
      have hq : p = q := by
        have := congrArg Prod.fst h
        simpa using this
      exact ⟨v, by rw [← hq]; exact hl⟩
    | none =>
      rw [hl, if_pos (by omega)] at h
      have := congrArg (fun x => x.2.2) h
      simp at this
  | succ m ih =>
    intro p acc hn q bcc h
    rw [arpc_walk] at h
    cases hl : pti_lookup pti p with
    | some v =>
      rw [hl] at h
      have hq : p = q := by
        have := congrArg Prod.fst h
        simpa using this
      exact ⟨v, by rw [← hq]; exact hl⟩
    | none =>
      rw [hl] at h
      by_cases hp1 : p.length ≤ 1
      · rw [if_pos hp1] at h
        have := congrArg (fun x => x.2.2) h
        simp at this
      · rw [if_neg hp1] at h
        exact ih p.dropLast (acc ++ [p.getLastD []])
          (by rw [List.length_dropLast]; omega) q bcc h

/-- One downward splice step preserves the splice invariant. -/
theorem arpc_step_inv (fs : FsTree) (nm : Name) (st st' : ArpcSt)
    (h : arpc_step fs st nm = .ok st') (hP : ArpcP st) : ArpcP st' := by
  obtain ⟨hInv, hpti, hpar⟩ := hP
  unfold arpc_step at h
  simp only [] at h
  cases hf : fsFind (st.cur ++ [nm]) fs with
  | none => rw [hf] at h; exact absurd h (by simp)
  | some t =>
    rw [hf] at h
    have h4 : (add_file_db_entry st.db
        ⟨nm, true, st.parentIdx, 0, t.modified, t.accessed, EMPTY_HASH⟩ >>=
        fun d => pure ⟨d.1, pti_insert st.pti (st.cur ++ [nm]) d.2,
          st.cur ++ [nm], d.2⟩) = Except.ok st' := h
    clear h
    cases hadd : add_file_db_entry st.db
        ⟨nm, true, st.parentIdx, 0, t.modified, t.accessed, EMPTY_HASH⟩ with
    | error er =>
      rw [hadd, except_bind_error] at h4
      exact absurd h4 (by simp)
    | ok p =>
      have hpeq := add_file_db_entry_ok _ _ _ hadd
      rw [hadd, except_bind_ok] at h4
      subst hpeq
      have hst' : (⟨st.db ++
          [⟨nm, true, st.parentIdx, 0, t.modified, t.accessed, EMPTY_HASH⟩],
          pti_insert st.pti (st.cur ++ [nm]) st.db.length,
          st.cur ++ [nm], st.db.length⟩ : ArpcSt) = st' := by
        simpa [pure, Except.pure] using h4
      rw [← hst']
      have hnew : (st.db ++
          [⟨nm, true, st.parentIdx, 0, t.modified, t.accessed,
            EMPTY_HASH⟩])[st.db.length]? =
          some ⟨nm, true, st.parentIdx, 0, t.modified, t.accessed,
            EMPTY_HASH⟩ := by
        rw [List.getElem?_append_right (le_refl _)]
        simp
      have hInv' : DbInv (st.db ++
          [⟨nm, true, st.parentIdx, 0, t.modified, t.accessed,
            EMPTY_HASH⟩]) := by
        refine dbInv_append st.db _ hInv ?_
        rcases hpar with ⟨hemp, hs⟩ | ⟨pe, hpe, hdir⟩
        · exact Or.inl ⟨hemp, hs⟩
        · exact Or.inr ⟨pe, hpe, hdir⟩
      refine ⟨hInv', ?_, ?_⟩
      · refine PtiOk_insert _ _ (PtiOk_append _ _ _ hpti) _ _ _ hnew rfl
      · exact Or.inr ⟨_, hnew, rfl⟩

/-- add_root_path_components preserves the forest invariants and Path
Index soundness when the upward scan finds a known ancestor or the
store is still empty. -/
theorem arpc_inv (fs : FsTree) (root : List Name) (db : FileDb)
    (pti : PathIdx) (hInv : DbInv db) (hp : PtiOk pti db)
    (hsafe : (arpc_walk pti root []).2.2 = true ∨ db = [])
    (res : FileDb × PathIdx)
    (h : add_root_path_components fs root db pti = .ok res) :
    DbInv res.1 ∧ PtiOk res.2 res.1 := by
  unfold add_root_path_components at h
  split at h
  · exact absurd h (by simp)
  · simp only [] at h
    by_cases hfnd : (arpc_walk pti root []).2.2 = true
    · rw [if_pos hfnd, if_pos hfnd, if_pos hfnd] at h
      obtain ⟨v, hv⟩ := arpc_walk_found pti root.length root []
        (le_refl _) (arpc_walk pti root []).1 (arpc_walk pti root []).2.1
        (by rw [← hfnd])
      obtain ⟨pe, hpe, hdir⟩ := PtiOk_lookup pti db hp _ v hv
      have hinit : ArpcP ⟨db, pti, (arpc_walk pti root []).1,
          (pti_lookup pti (arpc_walk pti root []).1).getD SENTINEL⟩ := by
        refine ⟨hInv, hp, Or.inr ⟨pe, ?_, hdir⟩⟩
        rw [hv]
        exact hpe
      cases hfold : (arpc_walk pti root []).2.1.reverse.foldlM
          (arpc_step fs) ⟨db, pti, (arpc_walk pti root []).1,
            (pti_lookup pti (arpc_walk pti root []).1).getD SENTINEL⟩ with
      | error er => rw [hfold, except_bind_error] at h; exact absurd h (by simp)
      | ok stf =>
        rw [hfold, except_bind_ok] at h
        have hres : (stf.db, stf.pti) = res := by
          simpa [pure, Except.pure] using h
        obtain ⟨hI, hPt, _⟩ := foldlM_except_inv (arpc_step fs) ArpcP
          (fun b a b' hb hf => arpc_step_inv fs a b b' hf hb)
          ((arpc_walk pti root []).2.1.reverse) _ stf hinit hfold
        rw [← hres]
        exact ⟨hI, hPt⟩
    · rw [if_neg hfnd, if_neg hfnd, if_neg hfnd] at h
      have hemp : db = [] := by
        rcases hsafe with h1 | h1
        · exact absurd h1 hfnd
        · exact h1
      subst hemp
      have hinit : ArpcP ⟨[], pti, [], SENTINEL⟩ := ⟨hInv, hp, Or.inl ⟨rfl, rfl⟩⟩
      cases hfold : ((arpc_walk pti root []).2.1 ++
          [(arpc_walk pti root []).1.getLastD []]).reverse.foldlM
          (arpc_step fs) ⟨[], pti, [], SENTINEL⟩ with
      | error er => rw [hfold, except_bind_error] at h; exact absurd h (by simp)
      | ok stf =>
        rw [hfold, except_bind_ok] at h
        have hres : (stf.db, stf.pti) = res := by
          simpa [pure, Except.pure] using h
        obtain ⟨hI, hPt, _⟩ := foldlM_except_inv (arpc_step fs) ArpcP
          (fun b a b' hb hf => arpc_step_inv fs a b b' hf hb)
          (((arpc_walk pti root []).2.1 ++
            [(arpc_walk pti root []).1.getLastD []]).reverse) _ stf hinit hfold
        rw [← hres]
        exact ⟨hI, hPt⟩

/-- Inversion of a successful monadic bind over Except. -/
theorem except_bind_eq_ok {alp bet : Type} (m : Except Err alp)
    (k : alp → Except Err bet) (b : bet) (h : m >>= k = .ok b) :
    ∃ a, m = .ok a ∧ k a = .ok b := by
  cases m with
  | error e => rw [except_bind_error] at h; exact absurd h (by simp)
  | ok a => rw [except_bind_ok] at h; exact ⟨a, rfl, h⟩

/-- A successfully built Path Index is sound for its store. -/
theorem build_ptiOk (db : FileDb) (pti : PathIdx)
    (h : build_path_to_index_map db = .ok pti) : PtiOk pti db := by
  unfold build_path_to_index_map at h
  refine foldlM_except_inv _ (fun m => PtiOk m db) ?_
    (List.range db.length) [] pti ?_ h
  · intro b a b' hb hf
    cases hdb : db[a]? with
    | none => rw [hdb] at hf; exact absurd hf (by simp)
    | some e =>
      rw [hdb] at hf
      have hf2 : (if e.is_dir = true then
          (do
            let p ← get_full_path db a
            pure (pti_insert b p a) : Except Err PathIdx)
        else pure b) = .ok b' := hf
      clear hf
      split at hf2
      · rename_i hd
        obtain ⟨pth, hgfp, hk⟩ := except_bind_eq_ok _ _ _ hf2
        have hbb : pti_insert b pth a = b' := by
          simpa [pure, Except.pure] using hk
        rw [← hbb]
        exact PtiOk_insert b db hb pth a e hdb hd
      · have hbb : b = b' := by simpa [pure, Except.pure] using hf2
        rwa [← hbb]
  · unfold PtiOk ptiOkB
    simp

/-- The insertion tail of one crawl step preserves the invariants. -/
theorem adr_insert_inv (db : FileDb) (pti : PathIdx) (path : List Name)
    (t : FsTree) (parentIdx : Nat) (skip : Bool) (st' : FileDb × PathIdx)
    (hInv : DbInv db) (hp : PtiOk pti db)
    (hpar : ∃ pe, db[parentIdx]? = some pe ∧ pe.is_dir = true)
    (h : (if skip = true then pure (db, pti)
      else
        add_file_db_entry db
          ⟨path.getLastD [], t.is_dir, parentIdx,
            if t.is_dir = true then 0 else t.size, t.modified, t.accessed,
            if t.is_dir = true then EMPTY_HASH
            else get_hash_for_file t.contentId⟩ >>=
          fun d =>
          if t.is_dir = true then
            pure (d.1, pti_insert pti path (d.1.length - 1))
          else pure (d.1, pti)) = Except.ok st') :
    DbInv st'.1 ∧ PtiOk st'.2 st'.1 := by
  split at h
  · have hbb : (db, pti) = st' := by simpa [pure, Except.pure] using h
    rw [← hbb]
    exact ⟨hInv, hp⟩
  · obtain ⟨d, hadd, hk⟩ := except_bind_eq_ok _ _ _ h
    have hd := add_file_db_entry_ok _ _ _ hadd
    subst hd
    split at hk
    · rename_i hdir
      have hbb : ((db ++ [⟨path.getLastD [], t.is_dir, parentIdx, 0,
          t.modified, t.accessed, EMPTY_HASH⟩],
          pti_insert pti path db.length) : FileDb × PathIdx) = st' := by
        simpa [pure, Except.pure] using hk
      rw [← hbb]
      constructor
      · exact dbInv_append db _ hInv (Or.inr hpar)
      · refine PtiOk_insert _ _ (PtiOk_append _ _ _ hp) path db.length
          ⟨path.getLastD [], t.is_dir, parentIdx, 0, t.modified,
            t.accessed, EMPTY_HASH⟩ ?_ hdir
        rw [List.getElem?_append_right (le_refl _)]
        simp
    · have hbb : ((db ++ [⟨path.getLastD [], t.is_dir, parentIdx, t.size,
          t.modified, t.accessed, get_hash_for_file t.contentId⟩], pti) :
          FileDb × PathIdx) = st' := by
        simpa [pure, Except.pure] using hk
      rw [← hbb]
      exact ⟨dbInv_append db _ hInv (Or.inr hpar), PtiOk_append _ _ _ hp⟩

/-- One crawl step preserves the invariants. -/
theorem adr_step_inv (d2f : DirToFiles) (is_up : Bool)
    (st st' : FileDb × PathIdx) (pe : List Name × FsTree)
    (h : adr_step d2f is_up st pe = .ok st')
    (hP : DbInv st.1 ∧ PtiOk st.2 st.1) :
    DbInv st'.1 ∧ PtiOk st'.2 st'.1 := by
  obtain ⟨db, pti⟩ := st
  obtain ⟨path, t⟩ := pe
  obtain ⟨hInv, hp⟩ := hP
  unfold adr_step at h
  simp only [] at h
  split at h
  · have hbb : (db, pti) = st' := by simpa [pure, Except.pure] using h
    rw [← hbb]
    exact ⟨hInv, hp⟩
  · split at h
    · exact absurd h (by simp)
    · rename_i parentIdx hpl
      have hpar := PtiOk_lookup pti db hp path.dropLast parentIdx hpl
      by_cases hup : is_up = true
      · rw [if_pos hup] at h
        by_cases hdir : t.is_dir = true
        · rw [if_pos hdir] at h
          obtain ⟨skipv, hS, hK⟩ := except_bind_eq_ok _ _ _ h
          exact adr_insert_inv db pti path t parentIdx skipv st'
            hInv hp hpar hK
        · rw [if_neg hdir] at h
          cases hd2f : d2f_lookup d2f parentIdx with
          | none =>
            rw [hd2f] at h
            obtain ⟨skipv, hS, hK⟩ := except_bind_eq_ok _ _ _ h
            exact adr_insert_inv db pti path t parentIdx skipv st'
              hInv hp hpar hK
          | some fidxs =>
            rw [hd2f] at h
            obtain ⟨skipv, hS, hK⟩ := except_bind_eq_ok _ _ _ h
            exact adr_insert_inv db pti path t parentIdx skipv st'
              hInv hp hpar hK
      · rw [if_neg hup] at h
        obtain ⟨skipv, hS, hK⟩ := except_bind_eq_ok _ _ _ h
        exact adr_insert_inv db pti path t parentIdx skipv st'
          hInv hp hpar hK

/-- add_dir_recursive preserves the invariants: always in update mode,
and in splice mode when the upward scan finds a known ancestor or the
store is empty. -/
theorem add_dir_recursive_inv (fs : FsTree) (root : List Name)
    (db : FileDb) (pti : PathIdx) (d2f : DirToFiles)
    (hInv : DbInv db) (hp : PtiOk pti db)
    (hsafe : d2f ≠ [] ∨ (arpc_walk pti root []).2.2 = true ∨ db = [])
    (res : FileDb × PathIdx)
    (h : add_dir_recursive fs root db pti d2f = .ok res) :
    DbInv res.1 ∧ PtiOk res.2 res.1 := by
  unfold add_dir_recursive at h
  split at h
  · exact absurd h (by simp)
  · simp only [] at h
    cases hup : d2f.isEmpty with
    | true =>
      rw [hup] at h
      rw [if_neg (by simp)] at h
      obtain ⟨st0, hst0, h2⟩ := except_bind_eq_ok _ _ _ h
      obtain ⟨entries, hent, h3⟩ := except_bind_eq_ok _ _ _ h2
      have hsafe2 : (arpc_walk pti root []).2.2 = true ∨ db = [] := by
        rcases hsafe with h1 | h1 | h1
        · exact absurd (List.isEmpty_iff.mp hup) h1
        · exact Or.inl h1
        · exact Or.inr h1
      have hP0 := arpc_inv fs root db pti hInv hp hsafe2 st0 hst0
      exact foldlM_except_inv _
        (fun s => DbInv s.1 ∧ PtiOk s.2 s.1)
        (fun b a b' hb hf => adr_step_inv _ _ b b' a hf hb)
        entries st0 res hP0 h3
    | false =>
      rw [hup] at h
      rw [if_pos (by simp)] at h
      obtain ⟨st0, hst0, h2⟩ := except_bind_eq_ok _ _ _ h
      obtain ⟨entries, hent, h3⟩ := except_bind_eq_ok _ _ _ h2
      have hbb : (db, pti) = st0 := by
        simpa [pure, Except.pure] using hst0
      have hP0 : DbInv st0.1 ∧ PtiOk st0.2 st0.1 := by
        rw [← hbb]
        exact ⟨hInv, hp⟩
      exact foldlM_except_inv _
        (fun s => DbInv s.1 ∧ PtiOk s.2 s.1)
        (fun b a b' hb hf => adr_step_inv _ _ b b' a hf hb)
        entries st0 res hP0 h3

/-- One prune step preserves the invariants; the root is only ever
re-emitted into the still-empty buffer. -/
theorem prune_step_inv (fs : FsTree) (db : FileDb) (hInv : DbInv db)
    (st1 st2 : FileDb × PathIdx) (i : Nat)
    (h : prune_step fs db st1 i = .ok st2)
    (hP : DbInv st1.1 ∧ PtiOk st1.2 st1.1)
    (hzero : i = 0 → st1 = ([], [])) :
    DbInv st2.1 ∧ PtiOk st2.2 st2.1 := by
  obtain ⟨ndb, pti⟩ := st1
  obtain ⟨hI, hp⟩ := hP
  unfold prune_step at h
  simp only [] at h
  obtain ⟨path, hgfp, h2⟩ := except_bind_eq_ok _ _ _ h
  split at h2
  · have hbb : (ndb, pti) = st2 := by simpa [pure, Except.pure] using h2
    rw [← hbb]
    exact ⟨hI, hp⟩
  · rename_i t heq
    split at h2
    · exact absurd h2 (by simp)
    · rename_i e hdbi
      split at h2
      · split at h2
        · exact absurd h2 (by simp)
        · have hbb : (ndb, pti) = st2 := by
            simpa [pure, Except.pure] using h2
          rw [← hbb]
          exact ⟨hI, hp⟩
      · by_cases hroot : is_root_index i = true
        · rw [if_pos hroot] at h2
          obtain ⟨e1, he1, h3⟩ := except_bind_eq_ok _ _ _ h2
          have he1e : e = e1 := by simpa [pure, Except.pure] using he1
          subst he1e
          obtain ⟨d, hadd, h4⟩ := except_bind_eq_ok _ _ _ h3
          have hd := add_file_db_entry_ok _ _ _ hadd
          subst hd
          have hi0 : i = 0 := by simpa [is_root_index] using hroot
          have hemp := hzero hi0
          have hndb : ndb = [] := congrArg Prod.fst hemp
          have hpti : pti = [] := congrArg Prod.snd hemp
          subst hndb
          subst hpti
          have hsent : e.parent = SENTINEL :=
            (DbInv_spec db hInv i e hdbi).1 hi0
          have hInv' : DbInv ([] ++ [e]) :=
            dbInv_append [] e rfl (Or.inl ⟨rfl, hsent⟩)
          split at h4
          · rename_i hdir
            have hbb : (([] ++ [e], pti_insert [] path 0) :
                FileDb × PathIdx) = st2 := by
              simpa [pure, Except.pure] using h4
            rw [← hbb]
            refine ⟨hInv', ?_⟩
            refine PtiOk_insert [] ([] ++ [e]) rfl path 0 e (by simp) hdir
          · have hbb : (([] ++ [e], ([] : PathIdx)) :
                FileDb × PathIdx) = st2 := by
              simpa [pure, Except.pure] using h4
            rw [← hbb]
            exact ⟨hInv', rfl⟩
        · rw [if_neg hroot] at h2
          split at h2
          · rw [except_bind_error] at h2
            exact absurd h2 (by simp)
          · rename_i pIdx hlk
            obtain ⟨e', he', h3⟩ := except_bind_eq_ok _ _ _ h2
            have he'2 : { e with parent := pIdx } = e' := by
              simpa [pure, Except.pure] using he'
            subst he'2
            obtain ⟨d, hadd, h4⟩ := except_bind_eq_ok _ _ _ h3
            have hd := add_file_db_entry_ok _ _ _ hadd
            subst hd
            have hpar := PtiOk_lookup pti ndb hp path.dropLast pIdx hlk
            have hInv' : DbInv (ndb ++ [{ e with parent := pIdx }]) :=
              dbInv_append ndb _ hI (Or.inr hpar)
            split at h4
            · rename_i hdir
              have hbb : ((ndb ++ [{ e with parent := pIdx }],
                  pti_insert pti path ndb.length) :
                  FileDb × PathIdx) = st2 := by
                simpa [pure, Except.pure] using h4
              rw [← hbb]
              refine ⟨hInv', ?_⟩
              refine PtiOk_insert _ _ (PtiOk_append _ _ _ hp) path ndb.length
                { e with parent := pIdx } ?_ hdir
              rw [List.getElem?_append_right (le_refl _)]
              simp
            · have hbb : ((ndb ++ [{ e with parent := pIdx }], pti) :
                  FileDb × PathIdx) = st2 := by
                simpa [pure, Except.pure] using h4
              rw [← hbb]
              exact ⟨hInv', PtiOk_append _ _ _ hp⟩

/-- Every successful prefix of the prune rebuild keeps the invariants. -/
theorem prune_fold_inv (fs : FsTree) (db : FileDb) (hInv : DbInv db) :
    ∀ k st, (List.range k).foldlM (prune_step fs db) ([], []) = .ok st →
      DbInv st.1 ∧ PtiOk st.2 st.1 := by
  intro k
  induction k with
  | zero =>
    intro st h
    rw [List.range_zero, List.foldlM_nil] at h
    have hbb : (([], []) : FileDb × PathIdx) = st := by
      simpa [pure, Except.pure] using h
    rw [← hbb]
    exact ⟨rfl, rfl⟩
  | succ k ih =>
    intro st h
    rw [List.range_succ, List.foldlM_append] at h
    cases hpre : (List.range k).foldlM (prune_step fs db) ([], []) with
    | error er => rw [hpre, except_bind_error] at h; exact absurd h (by simp)
    | ok st1 =>
      rw [hpre, except_bind_ok, List.foldlM_cons] at h
      cases hstep : prune_step fs db st1 k with
      | error er => rw [hstep, except_bind_error] at h; exact absurd h (by simp)
      | ok st2 =>
        rw [hstep, except_bind_ok, List.foldlM_nil] at h
        have hst : st2 = st := by simpa [pure, Except.pure] using h
        rw [← hst]
        refine prune_step_inv fs db hInv st1 st2 k hstep (ih st1 hpre) ?_
        intro h0
        subst h0
        rw [List.range_zero, List.foldlM_nil] at hpre
        exact (by simpa [pure, Except.pure] using hpre : _ = st1).symm

/-- prune_deleted_paths preserves the forest invariants. -/
theorem prune_inv (fs : FsTree) (db : FileDb) (hInv : DbInv db)
    (db' : FileDb) (h : prune_deleted_paths fs db = .ok db') :
    DbInv db' := by
  unfold prune_deleted_paths at h
  obtain ⟨st, hst, h2⟩ := except_bind_eq_ok _ _ _ h
  have hbb : st.1 = db' := by simpa [pure, Except.pure] using h2
  rw [← hbb]
  exact (prune_fold_inv fs db hInv db.length st hst).1

/-- C5 (amended): stores produced by the crawler and the pruner satisfy
the forest invariants — address 0 has the SENTINEL parent, every other
node's parent is a strictly lower address, and every referenced parent
is a directory — for crawl_initial unconditionally, for crawl_add
whenever the upward scan of the new root finds an ancestor in the Path
Index rebuilt from the invariant-satisfying store (otherwise the splice
can emit a second SENTINEL-parent node), and for prune_deleted_paths on
every invariant-satisfying store. -/
theorem crawler_pruner_invariants (fs : FsTree) (root : List Name)
    (db : FileDb) :
    (∀ db', crawl_initial fs root = .ok db' → DbInv db') ∧
    (DbInv db →
      ∀ pti, build_path_to_index_map db = .ok pti →
        (arpc_walk pti root []).2.2 = true →
        ∀ db', crawl_add fs db root = .ok db' → DbInv db') ∧
    (DbInv db → ∀ db', prune_deleted_paths fs db = .ok db' → DbInv db') := by
  refine ⟨?_, ?_, ?_⟩
  · intro db' h
    unfold crawl_initial at h
    cases hadr : add_dir_recursive fs root [] [] [] with
    | error er => rw [hadr] at h; exact absurd h (by simp [Except.map])
    | ok res =>
      rw [hadr] at h
      have hbb : res.1 = db' := by simpa [Except.map] using h
      rw [← hbb]
      exact (add_dir_recursive_inv fs root [] [] [] rfl rfl
        (Or.inr (Or.inr rfl)) res hadr).1
  · intro hInv pti hbuild hfnd db' h
    unfold crawl_add at h
    obtain ⟨pti2, hb2, h2⟩ := except_bind_eq_ok _ _ _ h
    have hpp : pti = pti2 := by
      rw [hbuild] at hb2
      simpa using hb2
    subst hpp
    obtain ⟨st, hadr, h3⟩ := except_bind_eq_ok _ _ _ h2
    have hbb : st.1 = db' := by simpa [pure, Except.pure] using h3
    rw [← hbb]
    exact (add_dir_recursive_inv fs root db pti [] hInv
      (build_ptiOk db pti hbuild) (Or.inr (Or.inl hfnd)) st hadr).1
  · intro hInv db' h
    exact prune_inv fs db hInv db' h

unseal fsWalk arpc_walk in
/-- Witness for C5: a fresh crawl of fs1, an invariant-preserving
crawl_add of the new subdirectory [97] of fs2 whose upward scan finds
the catalogued anchor, and a prune that re-emits the whole catalog. -/
theorem crawler_pruner_invariants_witness :
    crawl_initial fs1 [[47]] = .ok db1c ∧
    build_path_to_index_map db1c = .ok [([[47]], 0)] ∧
    (arpc_walk [([[47]], 0)] [[47], [97]] []).2.2 = true ∧
    crawl_add fs2 db1c [[47], [97]] = .ok db5c ∧
    prune_deleted_paths fs1 db1c = .ok db1c ∧
    DbInv db1c ∧ DbInv db5c :=
  ⟨by decide, by decide, by decide, by decide, by decide,
    (crawler_pruner_invariants fs1 [[47]] db1c).1 db1c (by decide),
    (crawler_pruner_invariants fs2 [[47], [97]] db1c).2.1 (by decide)
      [([[47]], 0)] (by decide) (by decide) db5c (by decide)⟩

end Filedb
